import Mathlib

/-!
Verification development for the provenance-graph builder
(`src/files/generate_graph.py`, function `build_graph_and_subgraphs` and the
`__main__` driver).  The Python code is shallowly embedded: decoded JSON
values become the `Json` type below, Python dict/set/graph operations become
explicit list manipulations with Python's update semantics, and every place
where the Python code can raise (and be caught by the enclosing
`try/except`) is modelled with `Option`, keeping the partial state mutated
before the raise.
-/

mutual

/-- Decoded JSON values, the payload type of one log record (the result of
`json.loads`).  Numbers are modelled as integers — the log format used by the
program carries no floating-point payloads in any field the code reads.
`Json.null` also stands for Python `None` (e.g. the result of `dict.get` on a
missing key). -/
inductive Json where
  | null : Json
  | bool (b : Bool) : Json
  | num (n : Int) : Json
  | str (s : String) : Json
  | arr (xs : JList) : Json
  | obj (kvs : JObj) : Json
  deriving DecidableEq, Repr

/-- A JSON array's element list. -/
inductive JList where
  | nil : JList
  | cons (hd : Json) (tl : JList) : JList
  deriving DecidableEq, Repr

/-- A JSON object's key/value pairs, in document order. -/
inductive JObj where
  | nil : JObj
  | cons (k : String) (v : Json) (tl : JObj) : JObj
  deriving DecidableEq, Repr

end

/-- Convert a JSON array payload to a Lean list (used when the decoder
returns the elements of a parsed top-level array, as `json.loads` does). -/
def JList.toList : JList → List Json
  | .nil => []
  | .cons x xs => x :: JList.toList xs

/-- Build a JSON array payload from a Lean list. -/
def JList.ofList : List Json → JList
  | [] => .nil
  | x :: xs => .cons x (JList.ofList xs)

/-- First binding of a key in a JSON object (Python dicts have unique keys,
so first and only). -/
def JObj.lookup (key : String) : JObj → Option Json
  | .nil => none
  | .cons k v tl => if k = key then some v else JObj.lookup key tl

/-- Whether a JSON object has a binding for a key. -/
def JObj.hasKey (key : String) (o : JObj) : Bool := (o.lookup key).isSome

/-- Insert with Python dict semantics: replace in place if the key exists,
otherwise append. -/
def JObj.set : JObj → String → Json → JObj
  | .nil, key, v => .cons key v .nil
  | .cons k v0 tl, key, v =>
      if k = key then .cons k v tl else .cons k v0 (JObj.set tl key v)

/-- Python truthiness of a decoded value (`if x:`). -/
def Json.truthy : Json → Bool
  | .null => false
  | .bool b => b
  | .num n => decide (n ≠ 0)
  | .str s => decide (s ≠ "")
  | .arr .nil => false
  | .arr _ => true
  | .obj .nil => false
  | .obj _ => true

/-- Whether a decoded value is hashable in Python (lists and dicts are not;
using one as a dict/set key or graph node raises `TypeError`). -/
def Json.hashable : Json → Bool
  | .arr _ => false
  | .obj _ => false
  | _ => true

/-- `p` is a leading segment of `s` (character lists). -/
def strHasPre : List Char → List Char → Bool
  | [], _ => true
  | _ :: _, [] => false
  | a :: p, b :: s => a = b && strHasPre p s

/-- Python's `needle in hay` on strings: substring containment. -/
def strContains (needle : List Char) : List Char → Bool
  | [] => needle.isEmpty
  | c :: rest => strHasPre needle (c :: rest) || strContains needle rest

/-- Membership of a value in a JSON array payload. -/
def JList.memB (x : Json) : JList → Bool
  | .nil => false
  | .cons y ys => x = y || JList.memB x ys

/-- Python `entry.get(key, dflt)`: `none` models the `AttributeError` raised
when the receiver is not a dict. -/
def pyGet (v : Json) (key : String) (dflt : Json) : Option Json :=
  match v with
  | .obj kvs => some ((kvs.lookup key).getD dflt)
  | _ => none

/-- Python `v[key]` with a string key: `none` models both `KeyError` (missing
key) and `TypeError` (receiver not a dict). -/
def pyIndex (v : Json) (key : String) : Option Json :=
  match v with
  | .obj kvs => kvs.lookup key
  | _ => none

/-- Python `key in v` for a string literal key: key membership for dicts,
substring test for strings, element membership for lists; `none` models the
`TypeError` raised on numbers, booleans and `None`. -/
def pyContains (key : String) (v : Json) : Option Bool :=
  match v with
  | .obj kvs => some (kvs.hasKey key)
  | .str s => some (strContains key.toList s.toList)
  | .arr xs => some (xs.memB (Json.str key))
  | _ => none

/-- The identifier→name index (`uuid2name`): a Python dict with `Json` keys,
kept as an association list in insertion order. -/
def dictFind : List (Json × Json) → Json → Option Json
  | [], _ => none
  | (k, v) :: rest, key => if k = key then some v else dictFind rest key

/-- Python `key in d` on a dict: `none` models `TypeError` on an unhashable
key. -/
def dictContains (d : List (Json × Json)) (key : Json) : Option Bool :=
  if key.hashable then some (dictFind d key).isSome else none

/-- Replace a key's value in place, or append the binding (the effect of a
Python dict assignment on a hashable key). -/
def dictPut : List (Json × Json) → Json → Json → List (Json × Json)
  | [], key, v => [(key, v)]
  | (k2, v2) :: rest, key, v =>
      if k2 = key then (k2, v) :: rest else (k2, v2) :: dictPut rest key v

/-- Python `d[key] = v`: replace in place or append; `none` models
`TypeError` on an unhashable key. -/
def dictSet (d : List (Json × Json)) (key v : Json) : Option (List (Json × Json)) :=
  if key.hashable then some (dictPut d key v) else none

/-- Append an element unless present (the effect of `set.add` on a hashable
element). -/
def setPut (s : List Json) (x : Json) : List Json :=
  if x ∈ s then s else s ++ [x]

/-- Python `s.add(x)` on a set (modelled as a duplicate-free list in
insertion order); `none` models `TypeError` on an unhashable element. -/
def setAdd (s : List Json) (x : Json) : Option (List Json) :=
  if x.hashable then some (setPut s x) else none

/-- Python `x in s` on a set; `none` models `TypeError` on an unhashable
element. -/
def setContains (s : List Json) (x : Json) : Option Bool :=
  if x.hashable then some (decide (x ∈ s)) else none

/-- The `networkx.DiGraph` held in `main_graph`: node keys with their `type`
attribute (in insertion order), and a set of directed edges keyed by the
ordered endpoint pair, each carrying its `syscall` attribute.  A `DiGraph`
stores at most one edge per ordered pair: re-adding replaces the
attributes. -/
structure PyGraph where
  nodes : List (Json × Option String)
  edges : List ((Json × Json) × Json)
  deriving DecidableEq, Repr

/-- Set a node's `type` attribute, creating the node if absent
(`add_node(key, type=t)`). -/
def nodeSet : List (Json × Option String) → Json → String → List (Json × Option String)
  | [], key, t => [(key, some t)]
  | (k2, t2) :: rest, key, t =>
      if k2 = key then (k2, some t) :: rest else (k2, t2) :: nodeSet rest key t

/-- Ensure a node exists without touching its attributes (what `add_edge`
does to its endpoints). -/
def nodeEnsure (ns : List (Json × Option String)) (key : Json) : List (Json × Option String) :=
  if ns.any (fun kv => kv.1 = key) then ns else ns ++ [(key, none)]

/-- The stored `type` attribute of a node. -/
def nodeTypeOf (ns : List (Json × Option String)) (key : Json) : Option (Option String) :=
  match ns with
  | [] => none
  | (k2, t2) :: rest => if k2 = key then some t2 else nodeTypeOf rest key

/-- Store an edge with `DiGraph` semantics: one edge per ordered pair, the
`syscall` attribute of a re-added edge overwrites the old one. -/
def edgeSet : List ((Json × Json) × Json) → Json → Json → Json → List ((Json × Json) × Json)
  | [], u, v, l => [((u, v), l)]
  | (e, l2) :: rest, u, v, l =>
      if e = (u, v) then (e, l) :: rest else (e, l2) :: edgeSet rest u v l

/-- `main_graph.add_node(key, type=t)`; `none` models `TypeError` on an
unhashable node key. -/
def addNode (g : PyGraph) (key : Json) (t : String) : Option PyGraph :=
  if key.hashable then some { g with nodes := nodeSet g.nodes key t } else none

/-- `main_graph.add_edge(u, v, syscall=l)`; adds missing endpoint nodes,
then stores the edge; `none` models `TypeError` on unhashable endpoints. -/
def addEdge (g : PyGraph) (u v : Json) (l : Json) : Option PyGraph :=
  if u.hashable && v.hashable then
    some { nodes := nodeEnsure (nodeEnsure g.nodes u) v,
           edges := edgeSet g.edges u v l }
  else none

/-- The full CDM18 discriminant key for file declarations. -/
def kFile : String := "com.bbn.tc.schema.avro.cdm18.FileObject"

/-- The full CDM18 discriminant key for process (Subject) declarations. -/
def kSubject : String := "com.bbn.tc.schema.avro.cdm18.Subject"

/-- The full CDM18 discriminant key for socket (NetFlowObject) declarations. -/
def kNetflow : String := "com.bbn.tc.schema.avro.cdm18.NetFlowObject"

/-- The full CDM18 discriminant key for event records. -/
def kEvent : String := "com.bbn.tc.schema.avro.cdm18.Event"

/-- The key under which event endpoints carry their identifier. -/
def kUUID : String := "com.bbn.tc.schema.avro.cdm18.UUID"

/-- The mutable state of `build_graph_and_subgraphs` while it scans records:
the graph, the set of file nodes, the identifier→name index, the set of names
declared by file declarations, and the three per-type counters `f, p, s`. -/
structure BuildState where
  graph : PyGraph
  file_nodes : List Json
  uuid2name : List (Json × Json)
  file_names : List Json
  f : Nat
  p : Nat
  s : Nat
  deriving DecidableEq, Repr

/-- The state before any record is processed. -/
def initState : BuildState :=
  { graph := { nodes := [], edges := [] }, file_nodes := [], uuid2name := [],
    file_names := [], f := 0, p := 0, s := 0 }

/-- The `FileObject` arm of the first pass.  Mirrors the statement order of
the source: the node and `file_nodes` entry are created *before* the
`file_obj["uuid"]` access, so a record that fails there (caught by the
enclosing `except`) keeps those effects but records no identifier mapping,
no `file_names` entry and no counter increment. -/
def fileBranch (st : BuildState) (fileObj : Json) : BuildState :=
  match (do
    let b ← pyIndex fileObj "baseObject"
    let pr ← pyIndex b "properties"
    let mp ← pyIndex pr "map"
    pyGet mp "path" Json.null) with
  | none => st
  | some filePath =>
    if filePath.truthy then
      match addNode st.graph filePath "file" with
      | none => st
      | some g1 =>
        match setAdd st.file_nodes filePath with
        | none => { st with graph := g1 }
        | some fn1 =>
          match pyIndex fileObj "uuid" with
          | none => { st with graph := g1, file_nodes := fn1 }
          | some uuid =>
            match dictSet st.uuid2name uuid filePath with
            | none => { st with graph := g1, file_nodes := fn1 }
            | some d1 =>
              match setAdd st.file_names filePath with
              | none => { st with graph := g1, file_nodes := fn1, uuid2name := d1 }
              | some fs1 =>
                { st with graph := g1, file_nodes := fn1, uuid2name := d1,
                          file_names := fs1, f := st.f + 1 }
    else st

/-- The `Subject` arm of the first pass: a process node is created and its
identifier mapped only when both the uuid and the executable name are
present and truthy. -/
def subjectBranch (st : BuildState) (subject : Json) : BuildState :=
  match pyGet subject "uuid" Json.null with
  | none => st
  | some processUuid =>
    match (do
      let props ← pyGet subject "properties" (Json.obj .nil)
      let mp ← pyGet props "map" (Json.obj .nil)
      pyGet mp "name" Json.null) with
    | none => st
    | some execName =>
      if processUuid.truthy && execName.truthy then
        match addNode st.graph execName "process" with
        | none => st
        | some g1 =>
          match dictSet st.uuid2name processUuid execName with
          | none => { st with graph := g1 }
          | some d1 => { st with graph := g1, uuid2name := d1, p := st.p + 1 }
      else st

/-- The `NetFlowObject` arm of the first pass.  As in the file arm, the
socket node is added before the `netflow_obj["uuid"]` access, so a missing
uuid leaves the node behind without an identifier mapping or counter
increment. -/
def netflowBranch (st : BuildState) (netflowObj : Json) : BuildState :=
  match pyGet netflowObj "remoteAddress" Json.null with
  | none => st
  | some socketAddress =>
    if socketAddress.truthy then
      match addNode st.graph socketAddress "socket" with
      | none => st
      | some g1 =>
        match pyIndex netflowObj "uuid" with
        | none => { st with graph := g1 }
        | some uuid =>
          match dictSet st.uuid2name uuid socketAddress with
          | none => { st with graph := g1 }
          | some d1 => { st with graph := g1, uuid2name := d1, s := st.s + 1 }
    else st

/-- One record of the first pass ("Process all entries for nodes"): inspect
`entry.get("datum", {})` and dispatch on the discriminant; every failure is
caught by the per-record `except`, keeping the state reached so far. -/
def processNode (st : BuildState) (entry : Json) : BuildState :=
  match pyGet entry "datum" (Json.obj .nil) with
  | none => st
  | some datum =>
    match pyContains kFile datum with
    | none => st
    | some true =>
      match pyIndex datum kFile with
      | none => st
      | some fileObj => fileBranch st fileObj
    | some false =>
      match pyContains kSubject datum with
      | none => st
      | some true =>
        match pyIndex datum kSubject with
        | none => st
        | some subject => subjectBranch st subject
      | some false =>
        match pyContains kNetflow datum with
        | none => st
        | some true =>
          match pyIndex datum kNetflow with
          | none => st
          | some netflowObj => netflowBranch st netflowObj
        | some false => st

/-- One record of the second pass ("Process all entries for edges"): for an
`Event` record, resolve both endpoint identifiers through `uuid2name`; if
both resolve, add one edge, flipped to run file → actor whenever the
resolved target name is in `file_names`. -/
def processEdge (st : BuildState) (entry : Json) : BuildState :=
  match pyGet entry "datum" (Json.obj .nil) with
  | none => st
  | some datum =>
    match pyContains kEvent datum with
    | none => st
    | some false => st
    | some true =>
      match pyIndex datum kEvent with
      | none => st
      | some event =>
        match (do
          let syscall ← pyGet event "type" Json.null
          let subject ← pyGet event "subject" (Json.obj .nil)
          let src ← pyGet subject kUUID Json.null
          let preobject ← pyGet event "predicateObject" (Json.obj .nil)
          let tgt ← pyGet preobject kUUID Json.null
          pure (syscall, src, tgt)) with
        | none => st
        | some (syscall, src, tgt) =>
          match dictContains st.uuid2name src with
          | none => st
          | some false => st
          | some true =>
            match dictContains st.uuid2name tgt with
            | none => st
            | some false => st
            | some true =>
              let name1 := (dictFind st.uuid2name src).getD Json.null
              let name2 := (dictFind st.uuid2name tgt).getD Json.null
              match setContains st.file_names name2 with
              | none => st
              | some true =>
                match addEdge st.graph name2 name1 syscall with
                | none => st
                | some g1 => { st with graph := g1 }
              | some false =>
                match addEdge st.graph name1 name2 syscall with
                | none => st
                | some g1 => { st with graph := g1 }

/-- The two sequential passes over the decoded records. -/
def buildFromEntries (entries : List Json) : BuildState :=
  entries.foldl processEdge (entries.foldl processNode initState)

/-- One saturation pass over the edge list: append the head of every edge
whose tail is already reached. -/
def stepOnce (es : List ((Json × Json) × Json)) (cur : List Json) : List Json :=
  es.foldl (fun acc e => if e.1.1 ∈ acc ∧ e.1.2 ∉ acc then acc ++ [e.1.2] else acc) cur

/-- Iterated saturation. -/
def iterStep (es : List ((Json × Json) × Json)) : Nat → List Json → List Json
  | 0, cur => cur
  | k + 1, cur => iterStep es k (stepOnce es cur)

/-- The set of nodes reachable from `n` (including `n` itself): saturation
run for more passes than the graph can require. -/
def reachList (es : List ((Json × Json) × Json)) (n : Json) : List Json :=
  iterStep es (es.length + 1) [n]

/-- `networkx.descendants(main_graph, n)`: every node reachable from `n`,
excluding `n` itself. -/
def descendants (g : PyGraph) (n : Json) : List Json :=
  (reachList g.edges n).filter (fun m => m ≠ n)

/-- `{file_node} | descendants` — the node set of one behavior subgraph. -/
def subNodes (g : PyGraph) (n : Json) : List Json :=
  n :: descendants g n

/-- `main_graph.subgraph(subgraph_nodes).copy()`: the induced subgraph on
the reachable node set, a structurally independent copy. -/
def extractSub (g : PyGraph) (n : Json) : PyGraph :=
  { nodes := g.nodes.filter (fun kv => kv.1 ∈ subNodes g n),
    edges := g.edges.filter (fun e => e.1.1 ∈ subNodes g n ∧ e.1.2 ∈ subNodes g n) }

/-- The `file_subgraphs` dict: one behavior subgraph per file node. -/
def buildSubgraphs (st : BuildState) : List (Json × PyGraph) :=
  st.file_nodes.map (fun n => (n, extractSub st.graph n))

/-- There is an edge from `a` to `b` (with some label). -/
def hasEdge (es : List ((Json × Json) × Json)) (a b : Json) : Prop :=
  ∃ l, ((a, b), l) ∈ es

/-- Reflexive-transitive reachability along directed edges. -/
inductive ReachStar (es : List ((Json × Json) × Json)) : Json → Json → Prop
  | refl (a : Json) : ReachStar es a a
  | step {a b c : Json} : hasEdge es a b → ReachStar es b c → ReachStar es a c

/-- Reachability by one or more directed edges. -/
def ReachPlus (es : List ((Json × Json) × Json)) (a c : Json) : Prop :=
  ∃ b, hasEdge es a b ∧ ReachStar es b c

/-- Characters Python's `str.strip()` removes. -/
def pySpace (c : Char) : Bool :=
  c = ' ' || c = '\t' || c = '\n' || c = '\r' || c = '\x0b' || c = '\x0c'

/-- `line.strip()` (leading side). -/
def lstripWs (cs : List Char) : List Char := cs.dropWhile pySpace

/-- `line.strip()` (trailing side). -/
def rstripWs (cs : List Char) : List Char := ((cs.reverse).dropWhile pySpace).reverse

/-- Python `line.strip()`. -/
def pyStrip (cs : List Char) : List Char := rstripWs (lstripWs cs)

/-- Python `line.rstrip(',')`: removes *all* trailing commas. -/
def rstripComma (cs : List Char) : List Char :=
  ((cs.reverse).dropWhile (fun c => c = ',')).reverse

/-- The per-line cleaning of the recovery decoder:
`line.strip().rstrip(',').strip()`, then one leading `[` and then one
trailing `]` are removed if present. -/
def cleanLine (cs : List Char) : List Char :=
  let l1 := pyStrip (rstripComma (pyStrip cs))
  let l2 := if l1.head? = some '[' then l1.drop 1 else l1
  if l2.getLast? = some ']' then l2.dropLast else l2

/-- Python `content.split('\n')`. -/
def splitNl : List Char → List (List Char)
  | [] => [[]]
  | c :: rest =>
    if c = '\n' then [] :: splitNl rest
    else
      match splitNl rest with
      | [] => [[c]]
      | h :: t => (c :: h) :: t

/-- Join lines with newlines (the inverse framing of `splitNl`). -/
def joinNl : List (List Char) → List Char
  | [] => []
  | [l] => l
  | l :: ls => l ++ '\n' :: joinNl ls

/-- The line-oriented recovery loop: skip blank lines, clean each remaining
line, parse it if the cleaned form is non-empty, skip it if parsing fails,
and keep successfully parsed records in order. -/
def recoverLines (parse : List Char → Option Json) : List (List Char) → List Json
  | [] => []
  | l :: ls =>
    if pyStrip l = [] then recoverLines parse ls
    else
      match (if cleanLine l = [] then none else parse (cleanLine l)) with
      | some e => e :: recoverLines parse ls
      | none => recoverLines parse ls

/-- The record decoder: try the whole content as one JSON document (a parsed
array contributes its elements, any other value is wrapped in a one-element
sequence); on failure fall back to line-oriented recovery. -/
def decodeContent (parse : List Char → Option Json) (content : List Char) : List Json :=
  match parse content with
  | some (Json.arr xs) => xs.toList
  | some v => [v]
  | none => recoverLines parse (splitNl content)

/-- The whole pipeline of `build_graph_and_subgraphs`, parameterized by the
document parser (`json.loads`): decode, two passes, then one behavior
subgraph per file node. -/
def buildGraphAndSubgraphs (parse : List Char → Option Json) (content : List Char) :
    BuildState × List (Json × PyGraph) :=
  let st := buildFromEntries (decodeContent parse content)
  (st, buildSubgraphs st)

/-- JSON insignificant whitespace. -/
def jsonWs (c : Char) : Bool := c = ' ' || c = '\t' || c = '\n' || c = '\r'

/-- Skip insignificant whitespace. -/
def skipWs (cs : List Char) : List Char := cs.dropWhile jsonWs

/-- Decode one string-escape character (the escapes the log format uses). -/
def escChar (c : Char) : Option Char :=
  if c = '"' then some '"'
  else if c = '\\' then some '\\'
  else if c = '/' then some '/'
  else if c = 'n' then some '\n'
  else if c = 't' then some '\t'
  else if c = 'r' then some '\r'
  else none

/-- Parse the body of a string literal after the opening quote. -/
def parseStrBody : List Char → Option (List Char × List Char)
  | [] => none
  | c :: rest =>
    if c = '"' then some ([], rest)
    else if c = '\\' then
      match rest with
      | [] => none
      | e :: rest2 =>
        match escChar e with
        | none => none
        | some d =>
          match parseStrBody rest2 with
          | none => none
          | some (s, r) => some (d :: s, r)
    else
      match parseStrBody rest with
      | none => none
      | some (s, r) => some (c :: s, r)

/-- Parse a run of decimal digits into a natural number. -/
def parseDigits : List Char → Nat → Option (Nat × List Char)
  | [], acc => some (acc, [])
  | c :: rest, acc =>
    if '0' ≤ c ∧ c ≤ '9' then parseDigits rest (acc * 10 + (c.toNat - '0'.toNat))
    else some (acc, c :: rest)

/-- Parse an integer numeral (an optional minus sign and digits). -/
def parseIntTok (cs : List Char) : Option (Int × List Char) :=
  match cs with
  | '-' :: c :: rest =>
    if '0' ≤ c ∧ c ≤ '9' then
      match parseDigits (c :: rest) 0 with
      | some (n, r) => some (-(n : Int), r)
      | none => none
    else none
  | c :: rest =>
    if '0' ≤ c ∧ c ≤ '9' then
      match parseDigits (c :: rest) 0 with
      | some (n, r) => some ((n : Int), r)
      | none => none
    else none
  | [] => none

mutual

/-- Fuel-bounded recursive-descent parser for one JSON value (the model of
`json.loads` on the integer/string/array/object fragment the log format
uses). -/
def parseVal : Nat → List Char → Option (Json × List Char)
  | 0, _ => none
  | fuel + 1, cs =>
    match skipWs cs with
    | 't' :: 'r' :: 'u' :: 'e' :: r => some (Json.bool true, r)
    | 'f' :: 'a' :: 'l' :: 's' :: 'e' :: r => some (Json.bool false, r)
    | 'n' :: 'u' :: 'l' :: 'l' :: r => some (Json.null, r)
    | '"' :: r =>
      match parseStrBody r with
      | none => none
      | some (s, r2) => some (Json.str (String.mk s), r2)
    | '[' :: r =>
      (match skipWs r with
       | ']' :: r2 => some (Json.arr .nil, r2)
       | _ =>
         match parseVal fuel r with
         | none => none
         | some (v, r2) =>
           match parseArrTail fuel r2 with
           | none => none
           | some (vs, r3) => some (Json.arr (.cons v vs), r3))
    | '\x7b' :: r =>
      (match skipWs r with
       | '\x7d' :: r2 => some (Json.obj .nil, r2)
       | _ =>
         match parseMember fuel r with
         | none => none
         | some (k, v, r2) =>
           match parseObjTail fuel r2 with
           | none => none
           | some (kvs, r3) =>
             some (Json.obj (((k, v) :: kvs).foldl (fun o kv => o.set kv.1 kv.2) JObj.nil), r3))
    | other =>
      match parseIntTok other with
      | none => none
      | some (n, r) => some (Json.num n, r)

/-- After one array element: a comma and a further element, or the closing
bracket. -/
def parseArrTail : Nat → List Char → Option (JList × List Char)
  | 0, _ => none
  | fuel + 1, cs =>
    match skipWs cs with
    | ',' :: r =>
      (match parseVal fuel r with
       | none => none
       | some (v, r2) =>
         match parseArrTail fuel r2 with
         | none => none
         | some (vs, r3) => some (.cons v vs, r3))
    | ']' :: r => some (.nil, r)
    | _ => none

/-- One `"key": value` member of an object. -/
def parseMember : Nat → List Char → Option (String × Json × List Char)
  | 0, _ => none
  | fuel + 1, cs =>
    match skipWs cs with
    | '"' :: r =>
      (match parseStrBody r with
       | none => none
       | some (k, r2) =>
         match skipWs r2 with
         | ':' :: r3 =>
           (match parseVal fuel r3 with
            | none => none
            | some (v, r4) => some (String.mk k, v, r4))
         | _ => none)
    | _ => none

/-- After one object member: a comma and a further member, or the closing
brace; returns the raw member list in document order (duplicate keys are
resolved by the caller's left fold, keeping the last value as Python dicts
do). -/
def parseObjTail : Nat → List Char → Option (List (String × Json) × List Char)
  | 0, _ => none
  | fuel + 1, cs =>
    match skipWs cs with
    | ',' :: r =>
      (match parseMember fuel r with
       | none => none
       | some (k, v, r2) =>
         match parseObjTail fuel r2 with
         | none => none
         | some (kvs, r3) => some ((k, v) :: kvs, r3))
    | '\x7d' :: r => some ([], r)
    | _ => none

end

/-- The model of `json.loads`: parse one value and require only whitespace
after it. -/
def jsonLoads (cs : List Char) : Option Json :=
  match parseVal (cs.length + 1) cs with
  | none => none
  | some (v, rest) => if skipWs rest = [] then some v else none

/-- `json.loads` applied to a Lean string literal. -/
def jsonLoadsStr (s : String) : Option Json := jsonLoads s.toList

/-- A well-formed file declaration record (identifier `u`, path `path`),
shaped as the code reads it. -/
def fileDeclEntry (u path : String) : Json :=
  .obj (.cons "datum"
    (.obj (.cons kFile
      (.obj (.cons "baseObject"
        (.obj (.cons "properties"
          (.obj (.cons "map" (.obj (.cons "path" (.str path) .nil)) .nil)) .nil))
        (.cons "uuid" (.str u) .nil))) .nil)) .nil)

/-- A file declaration record whose `FileObject` payload carries a path but
no `uuid` field. -/
def fileDeclNoUuid (path : String) : Json :=
  .obj (.cons "datum"
    (.obj (.cons kFile
      (.obj (.cons "baseObject"
        (.obj (.cons "properties"
          (.obj (.cons "map" (.obj (.cons "path" (.str path) .nil)) .nil)) .nil))
        .nil)) .nil)) .nil)

/-- A well-formed process declaration record (identifier `u`, executable
name `name`). -/
def procDeclEntry (u name : String) : Json :=
  .obj (.cons "datum"
    (.obj (.cons kSubject
      (.obj (.cons "uuid" (.str u)
        (.cons "properties"
          (.obj (.cons "map" (.obj (.cons "name" (.str name) .nil)) .nil)) .nil))) .nil)) .nil)

/-- A well-formed socket declaration record (identifier `u`, remote address
`addr`). -/
def sockDeclEntry (u addr : String) : Json :=
  .obj (.cons "datum"
    (.obj (.cons kNetflow
      (.obj (.cons "remoteAddress" (.str addr)
        (.cons "uuid" (.str u) .nil))) .nil)) .nil)

/-- A socket declaration record whose `NetFlowObject` payload carries a
remote address but no `uuid` field. -/
def sockDeclNoUuid (addr : String) : Json :=
  .obj (.cons "datum"
    (.obj (.cons kNetflow
      (.obj (.cons "remoteAddress" (.str addr) .nil)) .nil)) .nil)

/-- A well-formed event record: operation tag `ty`, subject identifier
`srcU`, target identifier `tgtU`. -/
def eventEntry (ty srcU tgtU : Json) : Json :=
  .obj (.cons "datum"
    (.obj (.cons kEvent
      (.obj (.cons "type" ty
        (.cons "subject" (.obj (.cons kUUID srcU .nil))
          (.cons "predicateObject" (.obj (.cons kUUID tgtU .nil)) .nil)))) .nil)) .nil)

/-- An event record with subject and target identifiers but no `type`
field. -/
def eventEntryNoType (srcU tgtU : Json) : Json :=
  .obj (.cons "datum"
    (.obj (.cons kEvent
      (.obj (.cons "subject" (.obj (.cons kUUID srcU .nil))
        (.cons "predicateObject" (.obj (.cons kUUID tgtU .nil)) .nil))) .nil)) .nil)

/-! Reduction lemmas: how the two passes act on each record shape.  All are
definitional. -/

/-- `processEdge` on a well-formed event record reduces to the resolution
and direction logic. -/
lemma processEdge_eventEntry (st : BuildState) (ty srcU tgtU : Json) :
    processEdge st (eventEntry ty srcU tgtU) =
      match dictContains st.uuid2name srcU with
      | none => st
      | some false => st
      | some true =>
        match dictContains st.uuid2name tgtU with
        | none => st
        | some false => st
        | some true =>
          let name1 := (dictFind st.uuid2name srcU).getD Json.null
          let name2 := (dictFind st.uuid2name tgtU).getD Json.null
          match setContains st.file_names name2 with
          | none => st
          | some true =>
            match addEdge st.graph name2 name1 ty with
            | none => st
            | some g1 => { st with graph := g1 }
          | some false =>
            match addEdge st.graph name1 name2 ty with
            | none => st
            | some g1 => { st with graph := g1 }
      := rfl

/-- `processEdge` on an event record with no `type` field: identical
resolution logic, with `None` as the label. -/
lemma processEdge_eventEntryNoType (st : BuildState) (srcU tgtU : Json) :
    processEdge st (eventEntryNoType srcU tgtU) =
      match dictContains st.uuid2name srcU with
      | none => st
      | some false => st
      | some true =>
        match dictContains st.uuid2name tgtU with
        | none => st
        | some false => st
        | some true =>
          let name1 := (dictFind st.uuid2name srcU).getD Json.null
          let name2 := (dictFind st.uuid2name tgtU).getD Json.null
          match setContains st.file_names name2 with
          | none => st
          | some true =>
            match addEdge st.graph name2 name1 Json.null with
            | none => st
            | some g1 => { st with graph := g1 }
          | some false =>
            match addEdge st.graph name1 name2 Json.null with
            | none => st
            | some g1 => { st with graph := g1 }
      := rfl

/-- The first pass on a well-formed file declaration. -/
lemma processNode_fileDecl (st : BuildState) (u x : String) :
    processNode st (fileDeclEntry u x) =
      if (Json.str x).truthy = true then
        { st with graph := { st.graph with nodes := nodeSet st.graph.nodes (.str x) "file" },
                  file_nodes := setPut st.file_nodes (.str x),
                  uuid2name := dictPut st.uuid2name (.str u) (.str x),
                  file_names := setPut st.file_names (.str x),
                  f := st.f + 1 }
      else st := rfl

/-- The first pass on a file declaration with a path but no uuid: the node
and the `file_nodes` entry are created, then the record fails; the index,
`file_names` and the counter stay untouched. -/
lemma processNode_fileDeclNoUuid (st : BuildState) (x : String) :
    processNode st (fileDeclNoUuid x) =
      if (Json.str x).truthy = true then
        { st with graph := { st.graph with nodes := nodeSet st.graph.nodes (.str x) "file" },
                  file_nodes := setPut st.file_nodes (.str x) }
      else st := rfl

/-- The first pass on a well-formed process declaration. -/
lemma processNode_procDecl (st : BuildState) (u x : String) :
    processNode st (procDeclEntry u x) =
      if ((Json.str u).truthy && (Json.str x).truthy) = true then
        { st with graph := { st.graph with nodes := nodeSet st.graph.nodes (.str x) "process" },
                  uuid2name := dictPut st.uuid2name (.str u) (.str x),
                  p := st.p + 1 }
      else st := rfl

/-- The first pass on a well-formed socket declaration. -/
lemma processNode_sockDecl (st : BuildState) (u a : String) :
    processNode st (sockDeclEntry u a) =
      if (Json.str a).truthy = true then
        { st with graph := { st.graph with nodes := nodeSet st.graph.nodes (.str a) "socket" },
                  uuid2name := dictPut st.uuid2name (.str u) (.str a),
                  s := st.s + 1 }
      else st := rfl

/-- The first pass on a socket declaration with a remote address but no
uuid: the node is created, then the record fails. -/
lemma processNode_sockDeclNoUuid (st : BuildState) (a : String) :
    processNode st (sockDeclNoUuid a) =
      if (Json.str a).truthy = true then
        { st with graph := { st.graph with nodes := nodeSet st.graph.nodes (.str a) "socket" } }
      else st := rfl

/-- Event records are ignored by the first pass. -/
lemma processNode_eventEntry (st : BuildState) (ty srcU tgtU : Json) :
    processNode st (eventEntry ty srcU tgtU) = st := rfl

/-- Events without a `type` field are also ignored by the first pass. -/
lemma processNode_eventEntryNoType (st : BuildState) (srcU tgtU : Json) :
    processNode st (eventEntryNoType srcU tgtU) = st := rfl

/-- Declaration records are ignored by the second pass. -/
lemma processEdge_fileDecl (st : BuildState) (u x : String) :
    processEdge st (fileDeclEntry u x) = st := rfl

/-- Declaration records are ignored by the second pass. -/
lemma processEdge_procDecl (st : BuildState) (u x : String) :
    processEdge st (procDeclEntry u x) = st := rfl

/-- Declaration records are ignored by the second pass. -/
lemma processEdge_sockDecl (st : BuildState) (u a : String) :
    processEdge st (sockDeclEntry u a) = st := rfl

/-- A resolvable event adds exactly one edge, flipped when the resolved
target name was declared by a file declaration. -/
lemma processEdge_resolved (st : BuildState) (ty srcU tgtU n1 n2 : Json)
    (h1 : dictFind st.uuid2name srcU = some n1)
    (h2 : dictFind st.uuid2name tgtU = some n2)
    (hsu : srcU.hashable = true) (htu : tgtU.hashable = true)
    (hn1 : n1.hashable = true) (hn2 : n2.hashable = true) :
    processEdge st (eventEntry ty srcU tgtU) =
      if n2 ∈ st.file_names then
        { st with graph := { nodes := nodeEnsure (nodeEnsure st.graph.nodes n2) n1,
                             edges := edgeSet st.graph.edges n2 n1 ty } }
      else
        { st with graph := { nodes := nodeEnsure (nodeEnsure st.graph.nodes n1) n2,
                             edges := edgeSet st.graph.edges n1 n2 ty } } := by
  rw [processEdge_eventEntry]
  simp only [dictContains, hsu, htu, if_true, h1, h2, Option.isSome_some, Option.getD_some,
    setContains, hn2, addEdge, hn1, Bool.and_self, if_pos]
  by_cases hmem : n2 ∈ st.file_names
  · simp [hmem]
  · simp [hmem]

/-- A resolvable event with no `type` field adds the same edge with `None`
as its label. -/
lemma processEdgeNoType_resolved (st : BuildState) (srcU tgtU n1 n2 : Json)
    (h1 : dictFind st.uuid2name srcU = some n1)
    (h2 : dictFind st.uuid2name tgtU = some n2)
    (hsu : srcU.hashable = true) (htu : tgtU.hashable = true)
    (hn1 : n1.hashable = true) (hn2 : n2.hashable = true) :
    processEdge st (eventEntryNoType srcU tgtU) =
      if n2 ∈ st.file_names then
        { st with graph := { nodes := nodeEnsure (nodeEnsure st.graph.nodes n2) n1,
                             edges := edgeSet st.graph.edges n2 n1 Json.null } }
      else
        { st with graph := { nodes := nodeEnsure (nodeEnsure st.graph.nodes n1) n2,
                             edges := edgeSet st.graph.edges n1 n2 Json.null } } := by
  rw [processEdge_eventEntryNoType]
  simp only [dictContains, hsu, htu, if_true, h1, h2, Option.isSome_some, Option.getD_some,
    setContains, hn2, addEdge, hn1, Bool.and_self, if_pos]
  by_cases hmem : n2 ∈ st.file_names
  · simp [hmem]
  · simp [hmem]

/-- Re-adding an edge for the same ordered pair only overwrites its label. -/
lemma edgeSet_overwrite (es : List ((Json × Json) × Json)) (u v : Json) (l1 l2 : Json) :
    edgeSet (edgeSet es u v l1) u v l2 = edgeSet es u v l2 := by
  induction es with
  | nil => simp [edgeSet]
  | cons e rest ih =>
    obtain ⟨p, l⟩ := e
    by_cases hp : p = (u, v)
    · simp [edgeSet, hp]
    · simp [edgeSet, hp, ih]

/-- A concrete pass-1 state: file `/f` declared under identifier `F1`,
process `bash` declared under identifier `P1`. -/
def stW : BuildState :=
  List.foldl processNode initState [fileDeclEntry "F1" "/f", procDeclEntry "P1" "bash"]

/-- C1: for every Event record whose subject and target identifiers both
resolve through the identifier→name index, the edge added to the Graph runs
from the target's name to the subject's name when the resolved target name
belongs to a file-type node (one declared by a file declaration, i.e. a
member of `file_names`), and from the subject's name to the target's name
otherwise — for every state of the index and of `file_names`, hence
regardless of declaration order, and also when both endpoints resolve to
the same name (a self-loop). -/
theorem c1_direction_inference (st : BuildState) (ty srcU tgtU n1 n2 : Json)
    (h1 : dictFind st.uuid2name srcU = some n1)
    (h2 : dictFind st.uuid2name tgtU = some n2)
    (hsu : srcU.hashable = true) (htu : tgtU.hashable = true)
    (hn1 : n1.hashable = true) (hn2 : n2.hashable = true) :
    (processEdge st (eventEntry ty srcU tgtU)).graph.edges =
      if n2 ∈ st.file_names then edgeSet st.graph.edges n2 n1 ty
      else edgeSet st.graph.edges n1 n2 ty := by
  rw [processEdge_resolved st ty srcU tgtU n1 n2 h1 h2 hsu htu hn1 hn2]
  by_cases hmem : n2 ∈ st.file_names <;> simp [hmem]

/-- Witness for C1: in the concrete two-declaration state, an event whose
target resolves to the file `/f` yields the flipped edge `/f → bash`, and a
self-referential event on `bash` yields the self-loop `bash → bash`. -/
theorem c1_witness :
    dictFind stW.uuid2name (Json.str "P1") = some (Json.str "bash") ∧
    dictFind stW.uuid2name (Json.str "F1") = some (Json.str "/f") ∧
    (processEdge stW (eventEntry (Json.str "read") (Json.str "P1") (Json.str "F1"))).graph.edges =
      [((Json.str "/f", Json.str "bash"), Json.str "read")] ∧
    (processEdge stW (eventEntry (Json.str "fork") (Json.str "P1") (Json.str "P1"))).graph.edges =
      [((Json.str "bash", Json.str "bash"), Json.str "fork")] := by
  refine ⟨by decide, by decide, ?_, ?_⟩
  · rw [c1_direction_inference stW (Json.str "read") (Json.str "P1") (Json.str "F1")
      (Json.str "bash") (Json.str "/f") (by decide) (by decide) (by decide) (by decide)
      (by decide) (by decide)]
    decide
  · rw [c1_direction_inference stW (Json.str "fork") (Json.str "P1") (Json.str "P1")
      (Json.str "bash") (Json.str "bash") (by decide) (by decide) (by decide) (by decide)
      (by decide) (by decide)]
    decide

/-- The record sequence of the C3 counterexample: two process declarations
and two events over the same resolved ordered pair with different labels. -/
def c3entries : List Json :=
  [procDeclEntry "P1" "a", procDeclEntry "P2" "b",
   eventEntry (Json.str "read") (Json.str "P1") (Json.str "P2"),
   eventEntry (Json.str "write") (Json.str "P1") (Json.str "P2")]

/-- Counterexample to C3: two events that both yield an edge `a → b`, with
labels `read` and then `write`, leave the final Graph with a single edge
labeled `write` — the first edge is overwritten, not retained as a parallel
edge. -/
theorem c3_counterexample :
    (buildFromEntries c3entries).graph.edges = [((Json.str "a", Json.str "b"), Json.str "write")] ∧
    (buildFromEntries c3entries).graph.edges.length = 1 := by
  exact ⟨by decide, by decide⟩

/-- C3 as amended: when two Event records yield edges for the same ordered
pair `(u, v)` with labels `l1` and then `l2`, the final Graph holds exactly
the single `(u, v)` edge slot with label `l2` — `nx.DiGraph` deduplicates
edges by ordered endpoint pair and the later label overwrites the
earlier. -/
theorem c3_amended (st : BuildState) (ty1 ty2 srcU tgtU n1 n2 : Json)
    (h1 : dictFind st.uuid2name srcU = some n1)
    (h2 : dictFind st.uuid2name tgtU = some n2)
    (hsu : srcU.hashable = true) (htu : tgtU.hashable = true)
    (hn1 : n1.hashable = true) (hn2 : n2.hashable = true)
    (hnot : n2 ∉ st.file_names) :
    (processEdge (processEdge st (eventEntry ty1 srcU tgtU))
        (eventEntry ty2 srcU tgtU)).graph.edges =
      edgeSet st.graph.edges n1 n2 ty2 := by
  have e1 := processEdge_resolved st ty1 srcU tgtU n1 n2 h1 h2 hsu htu hn1 hn2
  rw [if_neg hnot] at e1
  rw [e1]
  have e2 := processEdge_resolved
    { st with graph := { nodes := nodeEnsure (nodeEnsure st.graph.nodes n1) n2,
                         edges := edgeSet st.graph.edges n1 n2 ty1 } }
    ty2 srcU tgtU n1 n2 h1 h2 hsu htu hn1 hn2
  rw [if_neg hnot] at e2
  rw [e2]
  exact edgeSet_overwrite st.graph.edges n1 n2 ty1 ty2

/-- Witness for C3's amended statement at the concrete two-process state. -/
theorem c3_amended_witness :
    dictFind (List.foldl processNode initState c3entries).uuid2name (Json.str "P1") =
      some (Json.str "a") ∧
    (processEdge (processEdge (List.foldl processNode initState c3entries)
        (eventEntry (Json.str "read") (Json.str "P1") (Json.str "P2")))
        (eventEntry (Json.str "write") (Json.str "P1") (Json.str "P2"))).graph.edges =
      edgeSet (List.foldl processNode initState c3entries).graph.edges
        (Json.str "a") (Json.str "b") (Json.str "write") := by
  refine ⟨by decide, ?_⟩
  exact c3_amended (List.foldl processNode initState c3entries)
    (Json.str "read") (Json.str "write") (Json.str "P1") (Json.str "P2")
    (Json.str "a") (Json.str "b") (by decide) (by decide) (by decide) (by decide)
    (by decide) (by decide) (by decide)

/-- C4: an Event record whose subject or target identifier is absent from
the identifier→name index leaves the whole state unchanged — no edge is
added and the run continues. -/
theorem c4_dangling_reference (st : BuildState) (ty srcU tgtU : Json)
    (h : dictFind st.uuid2name srcU = none ∨ dictFind st.uuid2name tgtU = none) :
    processEdge st (eventEntry ty srcU tgtU) = st := by
  rw [processEdge_eventEntry]
  rcases h with h | h
  · cases hsu : srcU.hashable <;> simp [dictContains, hsu, h]
  · cases hsu : srcU.hashable
    · simp [dictContains, hsu]
    · cases hfs : dictFind st.uuid2name srcU
      · simp [dictContains, hsu, hfs]
      · cases htu : tgtU.hashable <;> simp [dictContains, hsu, htu, hfs, h]

/-- Witness for C4: an input whose only record is an event referencing the
never-declared identifiers `X`, `Y` yields a Graph with zero edges and the
run completes. -/
theorem c4_witness :
    dictFind initState.uuid2name (Json.str "X") = none ∧
    processEdge initState (eventEntry (Json.str "read") (Json.str "X") (Json.str "Y")) =
      initState ∧
    (buildFromEntries [eventEntry (Json.str "read") (Json.str "X") (Json.str "Y")]).graph.edges =
      [] := by
  refine ⟨by decide, ?_, by decide⟩
  exact c4_dangling_reference initState (Json.str "read") (Json.str "X") (Json.str "Y")
    (Or.inl (by decide))

/-- The record sequence of the C5 counterexample: a file and a process
declaration, then an event with resolvable endpoints but no operation
tag. -/
def c5entries : List Json :=
  [fileDeclEntry "F1" "/x", procDeclEntry "P1" "bash",
   eventEntryNoType (Json.str "P1") (Json.str "F1")]

/-- Counterexample to C5: an Event record lacking the operation tag but
with resolvable subject and target identifiers is *not* skipped — it
produces an edge (labeled with the null value), so the record contributes
to the Graph. -/
theorem c5_counterexample :
    (buildFromEntries c5entries).graph.edges = [((Json.str "/x", Json.str "bash"), Json.null)] ∧
    (buildFromEntries c5entries).graph.edges ≠ [] := by
  exact ⟨by decide, by decide⟩

/-- C5 as amended: an Event record that lacks the operation tag but has
resolvable subject and target identifiers produces an edge under the usual
direction rule, labeled with the null value (`event.get("type")` yields
`None`, which is stored as the edge label rather than causing a skip). -/
theorem c5_amended (st : BuildState) (srcU tgtU n1 n2 : Json)
    (h1 : dictFind st.uuid2name srcU = some n1)
    (h2 : dictFind st.uuid2name tgtU = some n2)
    (hsu : srcU.hashable = true) (htu : tgtU.hashable = true)
    (hn1 : n1.hashable = true) (hn2 : n2.hashable = true) :
    (processEdge st (eventEntryNoType srcU tgtU)).graph.edges =
      if n2 ∈ st.file_names then edgeSet st.graph.edges n2 n1 Json.null
      else edgeSet st.graph.edges n1 n2 Json.null := by
  rw [processEdgeNoType_resolved st srcU tgtU n1 n2 h1 h2 hsu htu hn1 hn2]
  by_cases hmem : n2 ∈ st.file_names <;> simp [hmem]

/-- Witness for C5's amended statement at the concrete declared state. -/
theorem c5_amended_witness :
    dictFind stW.uuid2name (Json.str "P1") = some (Json.str "bash") ∧
    (processEdge stW (eventEntryNoType (Json.str "P1") (Json.str "F1"))).graph.edges =
      [((Json.str "/f", Json.str "bash"), Json.null)] := by
  refine ⟨by decide, ?_⟩
  rw [c5_amended stW (Json.str "P1") (Json.str "F1") (Json.str "bash") (Json.str "/f")
    (by decide) (by decide) (by decide) (by decide) (by decide) (by decide)]
  decide

/-- Adding to a Python set can only grow it. -/
lemma setPut_subset (s : List Json) (x : Json) : s ⊆ setPut s x := by
  by_cases h : x ∈ s <;> simp [setPut, h, List.subset_append_left]

/-- The added element is in the set. -/
lemma setPut_mem_self (s : List Json) (x : Json) : x ∈ setPut s x := by
  by_cases h : x ∈ s <;> simp [setPut, h]

/-- A successful `set.add` only grows the set. -/
lemma setAdd_subset {s r : List Json} {x : Json} (h : setAdd s x = some r) : s ⊆ r := by
  unfold setAdd at h
  split at h
  · cases h; exact setPut_subset _ _
  · cases h

/-- No first-pass record ever removes a name from `file_names`. -/
lemma file_names_mono_processNode (st : BuildState) (e : Json) :
    st.file_names ⊆ (processNode st e).file_names := by
  unfold processNode fileBranch subjectBranch netflowBranch
  repeat' split
  all_goals first
    | exact List.Subset.refl _
    | (apply setAdd_subset; assumption)

/-- No first-pass record ever removes a node from `file_nodes`. -/
lemma file_nodes_mono_processNode (st : BuildState) (e : Json) :
    st.file_nodes ⊆ (processNode st e).file_nodes := by
  unfold processNode fileBranch subjectBranch netflowBranch
  repeat' split
  all_goals first
    | exact List.Subset.refl _
    | (apply setAdd_subset; assumption)

/-- The second pass never changes `file_names`. -/
lemma processEdge_file_names (st : BuildState) (e : Json) :
    (processEdge st e).file_names = st.file_names := by
  unfold processEdge
  repeat' split
  all_goals try rfl
  all_goals (dsimp only []; repeat' split) <;> rfl

/-- The second pass never changes `file_nodes`. -/
lemma processEdge_file_nodes (st : BuildState) (e : Json) :
    (processEdge st e).file_nodes = st.file_nodes := by
  unfold processEdge
  repeat' split
  all_goals try rfl
  all_goals (dsimp only []; repeat' split) <;> rfl

/-- The second pass never changes the identifier→name index. -/
lemma processEdge_uuid2name (st : BuildState) (e : Json) :
    (processEdge st e).uuid2name = st.uuid2name := by
  unfold processEdge
  repeat' split
  all_goals try rfl
  all_goals (dsimp only []; repeat' split) <;> rfl

/-- `file_names` membership persists through the rest of the first pass. -/
lemma file_names_mono_foldl (st : BuildState) (l : List Json) :
    st.file_names ⊆ (List.foldl processNode st l).file_names := by
  induction l generalizing st with
  | nil => exact List.Subset.refl _
  | cons e rest ih =>
    exact fun a ha => ih (processNode st e) (file_names_mono_processNode st e ha)

/-- `file_names` is untouched by the whole second pass. -/
lemma file_names_foldl_processEdge (st : BuildState) (l : List Json) :
    (List.foldl processEdge st l).file_names = st.file_names := by
  induction l generalizing st with
  | nil => rfl
  | cons e rest ih => rw [List.foldl_cons, ih, processEdge_file_names]

/-- Looking up the key just stored. -/
lemma dictFind_dictPut_self (d : List (Json × Json)) (k v : Json) :
    dictFind (dictPut d k v) k = some v := by
  induction d with
  | nil => simp [dictPut, dictFind]
  | cons kv rest ih =>
    obtain ⟨k2, v2⟩ := kv
    by_cases h : k2 = k <;> simp [dictPut, dictFind, h, ih]

/-- The `type` attribute after `add_node` is the one just written. -/
lemma nodeTypeOf_nodeSet_self (ns : List (Json × Option String)) (k : Json) (t : String) :
    nodeTypeOf (nodeSet ns k t) k = some (some t) := by
  induction ns with
  | nil => simp [nodeSet, nodeTypeOf]
  | cons kv rest ih =>
    obtain ⟨k2, t2⟩ := kv
    by_cases h : k2 = k <;> simp [nodeSet, nodeTypeOf, h, ih]

/-- Every member of `file_nodes` is a key of the subgraph dict. -/
lemma buildSubgraphs_mem (st : BuildState) (n : Json) (h : n ∈ st.file_nodes) :
    (n, extractSub st.graph n) ∈ buildSubgraphs st :=
  List.mem_map_of_mem _ h

/-- C9: when the same Entity Name `x` is declared both by a file declaration
and by a process declaration — in either order — the merged node stays in
`file_names` and `file_nodes`, so the direction-inference rule flips every
edge whose target resolves to `x` (making `x` the source) and `x` receives a
Behavior Subgraph, even though the stored `type` tag equals the type of
whichever declaration was processed last; and membership persists through
any further records of both passes. -/
theorem c9_name_collision_merge (st : BuildState) (u1 u2 x : String)
    (hx : x ≠ "") (hu2 : u2 ≠ "") :
    ((Json.str x) ∈ (processNode (processNode st (fileDeclEntry u1 x))
        (procDeclEntry u2 x)).file_names ∧
     (Json.str x) ∈ (processNode (processNode st (fileDeclEntry u1 x))
        (procDeclEntry u2 x)).file_nodes ∧
     nodeTypeOf (processNode (processNode st (fileDeclEntry u1 x))
        (procDeclEntry u2 x)).graph.nodes (Json.str x) = some (some "process")) ∧
    ((Json.str x) ∈ (processNode (processNode st (procDeclEntry u2 x))
        (fileDeclEntry u1 x)).file_names ∧
     (Json.str x) ∈ (processNode (processNode st (procDeclEntry u2 x))
        (fileDeclEntry u1 x)).file_nodes ∧
     nodeTypeOf (processNode (processNode st (procDeclEntry u2 x))
        (fileDeclEntry u1 x)).graph.nodes (Json.str x) = some (some "file")) ∧
    (∀ ty srcU tgtU n1,
      dictFind (processNode (processNode st (fileDeclEntry u1 x))
          (procDeclEntry u2 x)).uuid2name srcU = some n1 →
      dictFind (processNode (processNode st (fileDeclEntry u1 x))
          (procDeclEntry u2 x)).uuid2name tgtU = some (Json.str x) →
      srcU.hashable = true → tgtU.hashable = true → n1.hashable = true →
      (processEdge (processNode (processNode st (fileDeclEntry u1 x)) (procDeclEntry u2 x))
          (eventEntry ty srcU tgtU)).graph.edges =
        edgeSet (processNode (processNode st (fileDeclEntry u1 x))
          (procDeclEntry u2 x)).graph.edges (Json.str x) n1 ty) ∧
    ((Json.str x, extractSub (processNode (processNode st (fileDeclEntry u1 x))
        (procDeclEntry u2 x)).graph (Json.str x)) ∈
      buildSubgraphs (processNode (processNode st (fileDeclEntry u1 x)) (procDeclEntry u2 x))) ∧
    (∀ more evs, (Json.str x) ∈
      (List.foldl processEdge (List.foldl processNode
        (processNode (processNode st (fileDeclEntry u1 x)) (procDeclEntry u2 x)) more)
        evs).file_names) := by
  have htx : (Json.str x).truthy = true := by simp [Json.truthy, hx]
  have htu2 : (Json.str u2).truthy = true := by simp [Json.truthy, hu2]
  simp only [processNode_fileDecl, processNode_procDecl, htx, htu2, Bool.and_self, if_true]
  refine ⟨⟨setPut_mem_self _ _, setPut_mem_self _ _, nodeTypeOf_nodeSet_self _ _ _⟩,
    ⟨setPut_mem_self _ _, setPut_mem_self _ _, nodeTypeOf_nodeSet_self _ _ _⟩, ?_, ?_, ?_⟩
  · intro ty srcU tgtU n1 h1 h2 hsu htu hn1
    rw [processEdge_resolved _ ty srcU tgtU n1 (Json.str x) h1 h2 hsu htu hn1 rfl]
    rw [if_pos (setPut_mem_self _ _)]
  · exact buildSubgraphs_mem _ _ (setPut_mem_self _ _)
  · intro more evs
    rw [file_names_foldl_processEdge]
    exact file_names_mono_foldl _ more (setPut_mem_self _ _)

/-- Witness for C9: concrete colliding declarations of the name `n` in both
orders, with the stored type tag equal to the last declaration's type while
the name stays a file name. -/
theorem c9_witness :
    ("n" : String) ≠ "" ∧ ("U2" : String) ≠ "" ∧
    (Json.str "n") ∈ (processNode (processNode initState (fileDeclEntry "U1" "n"))
        (procDeclEntry "U2" "n")).file_names ∧
    nodeTypeOf (processNode (processNode initState (fileDeclEntry "U1" "n"))
        (procDeclEntry "U2" "n")).graph.nodes (Json.str "n") = some (some "process") ∧
    nodeTypeOf (processNode (processNode initState (procDeclEntry "U2" "n"))
        (fileDeclEntry "U1" "n")).graph.nodes (Json.str "n") = some (some "file") := by
  refine ⟨by decide, by decide, ?_, ?_, ?_⟩
  · exact (c9_name_collision_merge initState "U1" "U2" "n" (by decide) (by decide)).1.1
  · exact (c9_name_collision_merge initState "U1" "U2" "n" (by decide) (by decide)).1.2.2
  · exact (c9_name_collision_merge initState "U1" "U2" "n" (by decide) (by decide)).2.1.2.2

/-- C10: skipping a failed declaration record is not atomic.  A file
declaration whose payload has a truthy path but no `uuid` field leaves the
state with the file node added to the graph and to `file_nodes` (so the path
still receives a Behavior Subgraph), while `uuid2name`, `file_names` and the
`f` counter are untouched; a socket declaration with a remote address but no
`uuid` likewise leaves the socket node in the graph with `uuid2name` and `s`
untouched. -/
theorem c10_partial_declaration_effects (st : BuildState) (x a : String)
    (hx : x ≠ "") (ha : a ≠ "") :
    processNode st (fileDeclNoUuid x) =
      { st with graph := { st.graph with nodes := nodeSet st.graph.nodes (Json.str x) "file" },
                file_nodes := setPut st.file_nodes (Json.str x) } ∧
    (Json.str x, extractSub (processNode st (fileDeclNoUuid x)).graph (Json.str x)) ∈
      buildSubgraphs (processNode st (fileDeclNoUuid x)) ∧
    processNode st (sockDeclNoUuid a) =
      { st with graph := { st.graph with nodes := nodeSet st.graph.nodes (Json.str a) "socket" } } := by
  have htx : (Json.str x).truthy = true := by simp [Json.truthy, hx]
  have hta : (Json.str a).truthy = true := by simp [Json.truthy, ha]
  refine ⟨?_, ?_, ?_⟩
  · rw [processNode_fileDeclNoUuid, if_pos htx]
  · rw [processNode_fileDeclNoUuid, if_pos htx]
    exact buildSubgraphs_mem _ _ (setPut_mem_self _ _)
  · rw [processNode_sockDeclNoUuid, if_pos hta]

/-- Witness for C10 at the initial state with concrete path and address. -/
theorem c10_witness :
    processNode initState (fileDeclNoUuid "/b") =
      { initState with
          graph := { initState.graph with
                       nodes := nodeSet initState.graph.nodes (Json.str "/b") "file" },
          file_nodes := setPut initState.file_nodes (Json.str "/b") } ∧
    processNode initState (sockDeclNoUuid "1.2.3.4") =
      { initState with
          graph := { initState.graph with
                       nodes := nodeSet initState.graph.nodes (Json.str "1.2.3.4") "socket" } } :=
  ⟨(c10_partial_declaration_effects initState "/b" "1.2.3.4" (by decide) (by decide)).1,
   (c10_partial_declaration_effects initState "/b" "1.2.3.4" (by decide) (by decide)).2.2⟩

lemma recoverLines_eq_filterMap (parse : List Char → Option Json) (ls : List (List Char)) :
    recoverLines parse ls = ls.filterMap (fun l =>
      if pyStrip l = [] then none
      else if cleanLine l = [] then none else parse (cleanLine l)) := by
  induction ls with
  | nil => rfl
  | cons l rest ih =>
    by_cases h1 : pyStrip l = []
    · simp [recoverLines, h1, ih]
    · by_cases h2 : cleanLine l = []
      · simp [recoverLines, h1, h2, ih]
      · cases hp : parse (cleanLine l) <;> simp [recoverLines, h1, h2, hp, ih]

lemma dropWhile_replicate_append (p : Char → Bool) (a : Char) (n : Nat) (t : List Char)
    (ha : p a = true) :
    List.dropWhile p (List.replicate n a ++ t) = List.dropWhile p t := by
  induction n with
  | zero => rfl
  | succ k ih => simp [List.replicate_succ, List.dropWhile_cons, ha, ih]

lemma dropWhile_fix_of_cons {p : Char → Bool} {c : Char} {l : List Char}
    (h : List.dropWhile p (c :: l) = c :: l) : p c = false := by
  by_cases hc : p c = true
  · exfalso
    rw [List.dropWhile_cons, if_pos hc] at h
    have hle := (List.dropWhile_suffix (l := l) p).length_le
    have h2 := congrArg List.length h
    simp at h2
    omega
  · simpa using hc

lemma dropWhile_fix_append {p : Char → Bool} {x y : List Char}
    (h : List.dropWhile p (x ++ y) = x ++ y) : List.dropWhile p x = x := by
  cases x with
  | nil => rfl
  | cons c t =>
    rw [List.cons_append] at h
    have hc : p c = false := dropWhile_fix_of_cons h
    simp [List.dropWhile_cons, hc]

lemma rstripWs_lstripWs_of_fix {core : List Char} (h : rstripWs core = core) :
    rstripWs (lstripWs core) = lstripWs core := by
  have h' : List.dropWhile pySpace core.reverse = core.reverse := by
    have h2 := congrArg List.reverse h
    simpa [rstripWs] using h2
  obtain ⟨t, ht⟩ : lstripWs core <:+ core := List.dropWhile_suffix pySpace
  have hrev : core.reverse = (lstripWs core).reverse ++ t.reverse := by
    conv_lhs => rw [← ht]
    rw [List.reverse_append]
  rw [hrev] at h'
  have hfix := dropWhile_fix_append h'
  unfold rstripWs
  rw [hfix, List.reverse_reverse]

lemma cleanLine_trailing_commas (core : List Char) (k : Nat) (h : rstripWs core = core) :
    cleanLine (core ++ List.replicate k ',') = cleanLine core := by
  cases k with
  | zero => simp
  | succ k =>
    have hstep1 : lstripWs (core ++ List.replicate (k + 1) ',') =
        lstripWs core ++ List.replicate (k + 1) ',' := by
      unfold lstripWs
      rw [List.dropWhile_append]
      split
      · next he =>
        have : List.dropWhile pySpace core = [] := by simpa [List.isEmpty_iff] using he
        rw [this, List.replicate_succ, List.dropWhile_cons]
        simp [pySpace]
      · rfl
    have hstep2 : rstripWs (lstripWs core ++ List.replicate (k + 1) ',') =
        lstripWs core ++ List.replicate (k + 1) ',' := by
      unfold rstripWs
      rw [List.reverse_append, List.reverse_replicate, List.replicate_succ,
        List.cons_append, List.dropWhile_cons]
      simp [pySpace]
      rw [← List.replicate_succ', List.replicate_succ]
    have hstep3 : rstripComma (lstripWs core ++ List.replicate (k + 1) ',') =
        rstripComma (lstripWs core) := by
      unfold rstripComma
      rw [List.reverse_append, List.reverse_replicate,
        dropWhile_replicate_append _ _ _ _ (by simp)]
    unfold cleanLine
    rw [show pyStrip (core ++ List.replicate (k + 1) ',') =
          lstripWs core ++ List.replicate (k + 1) ',' by
        unfold pyStrip; rw [hstep1, hstep2]]
    rw [hstep3]
    rw [show pyStrip core = lstripWs core by
        unfold pyStrip; rw [rstripWs_lstripWs_of_fix h]]

/-- Counterexample to C6: the code's `rstrip(',')` removes *all* trailing
commas, so the line `1,,,` cleans to `1` (not `1,,`) and parses
successfully instead of failing. -/
theorem c6_counterexample :
    cleanLine ("1,,,".toList) = "1".toList ∧
    cleanLine ("1,,,".toList) ≠ "1,,".toList ∧
    recoverLines jsonLoads ["1,,,".toList] = [Json.num 1] :=
  ⟨by decide, by decide, by decide⟩

/-- C6 as amended: in line-oriented recovery each non-blank line is cleaned
(whitespace strip, *all* trailing commas stripped, whitespace strip again,
then one leading `[` and one trailing `]`), lines that fail to parse are
skipped, and the successfully parsed lines appear in output in original
order (the decode is the in-order `filterMap` of clean-then-parse); a line
with content (with no trailing whitespace) followed by any number of
trailing commas cleans to the same text as without them and therefore
parses whenever the comma-free core parses. -/
theorem c6_amended (parse : List Char → Option Json) (ls : List (List Char))
    (core : List Char) (k : Nat) (hcore : rstripWs core = core) :
    recoverLines parse ls = ls.filterMap (fun l =>
      if pyStrip l = [] then none
      else if cleanLine l = [] then none else parse (cleanLine l)) ∧
    cleanLine (core ++ List.replicate k ',') = cleanLine core :=
  ⟨recoverLines_eq_filterMap parse ls, cleanLine_trailing_commas core k hcore⟩

/-- Witness for C6's amended statement on concrete lines. -/
theorem c6_amended_witness :
    rstripWs ("1".toList) = "1".toList ∧
    recoverLines jsonLoads ["2,".toList, "BAD".toList] =
      (["2,".toList, "BAD".toList]).filterMap (fun l =>
        if pyStrip l = [] then none
        else if cleanLine l = [] then none else jsonLoads (cleanLine l)) ∧
    cleanLine ("1".toList ++ List.replicate 3 ',') = cleanLine ("1".toList) := by
  refine ⟨by decide, ?_, ?_⟩
  · exact (c6_amended jsonLoads ["2,".toList, "BAD".toList] ("1".toList) 3 (by decide)).1
  · exact (c6_amended jsonLoads ["2,".toList, "BAD".toList] ("1".toList) 3 (by decide)).2

/-- `JList.toList` inverts `JList.ofList`. -/
lemma toList_ofList (rs : List Json) : JList.toList (JList.ofList rs) = rs := by
  induction rs with
  | nil => rfl
  | cons r rest ih => simp [JList.ofList, JList.toList, ih]

/-- Pieces produced by `splitNl` carry no newline. -/
lemma splitNl_no_newline (cs : List Char) : ∀ l ∈ splitNl cs, '\n' ∉ l := by
  induction cs with
  | nil =>
    intro l hl
    simp [splitNl] at hl
    simp [hl]
  | cons c rest ih =>
    intro l hl
    unfold splitNl at hl
    by_cases hc : c = '\n'
    · rw [if_pos hc] at hl
      rcases List.mem_cons.mp hl with h | h
      · simp [h]
      · exact ih l h
    · rw [if_neg hc] at hl
      rcases hsp : splitNl rest with _ | ⟨h0, t0⟩
      · rw [hsp] at hl
        simp at hl
        subst hl
        simp [hc, Ne.symm hc]
      · rw [hsp] at hl
        rcases List.mem_cons.mp hl with h | h
        · subst h
          intro hmem
          rcases List.mem_cons.mp hmem with h | h
          · exact hc h.symm
          · exact ih h0 (by rw [hsp]; exact List.mem_cons_self _ _) h
        · exact ih l (by rw [hsp]; exact List.mem_cons_of_mem _ h)

/-- A newline-free list splits to itself. -/
lemma splitNl_of_no_newline (l : List Char) (h : '\n' ∉ l) : splitNl l = [l] := by
  induction l with
  | nil => rfl
  | cons c t ih =>
    have hc : c ≠ '\n' := fun hcc => h (by simp [hcc])
    have ht : '\n' ∉ t := fun htt => h (List.mem_cons_of_mem _ htt)
    unfold splitNl
    rw [if_neg hc, ih ht]

/-- Splitting distributes over one newline joint when the first part is
newline-free. -/
lemma splitNl_append (l m : List Char) (h : '\n' ∉ l) :
    splitNl (l ++ '\n' :: m) = l :: splitNl m := by
  induction l with
  | nil => simp [splitNl]
  | cons c t ih =>
    have hc : c ≠ '\n' := fun hcc => h (by simp [hcc])
    have ht : '\n' ∉ t := fun htt => h (List.mem_cons_of_mem _ htt)
    rw [List.cons_append]
    rw [show splitNl (c :: (t ++ '\n' :: m)) =
          if c = '\n' then [] :: splitNl (t ++ '\n' :: m)
          else match splitNl (t ++ '\n' :: m) with
               | [] => [[c]]
               | h :: t => (c :: h) :: t
        from rfl]
    rw [if_neg hc, ih ht]

/-- `splitNl` inverts `joinNl` on non-empty lists of newline-free lines. -/
lemma splitNl_joinNl (ls : List (List Char)) (hne : ls ≠ [])
    (hnl : ∀ l ∈ ls, '\n' ∉ l) : splitNl (joinNl ls) = ls := by
  induction ls with
  | nil => exact absurd rfl hne
  | cons l rest ih =>
    cases rest with
    | nil =>
      show splitNl (joinNl [l]) = [l]
      rw [show joinNl [l] = l from rfl]
      exact splitNl_of_no_newline l (hnl l (List.mem_cons_self _ _))
    | cons r rs =>
      rw [show joinNl (l :: r :: rs) = l ++ '\n' :: joinNl (r :: rs) from rfl]
      rw [splitNl_append l _ (hnl l (List.mem_cons_self _ _))]
      rw [ih (by simp) (fun x hx => hnl x (List.mem_cons_of_mem _ hx))]

/-- Counterexample to C7: for the single record `[1]` (a record that is
itself a JSON array), the array framing `[[1]]` decodes to the record
`[1]`, while the newline-delimited framing — the single line `[1]`, which
parses to exactly that record — decodes to the record `1`: the two
framings yield different multisets. -/
theorem c7_counterexample :
    jsonLoads ("[1]".toList) = some (Json.arr (.cons (Json.num 1) .nil)) ∧
    decodeContent jsonLoads ("[[1]]".toList) = [Json.arr (.cons (Json.num 1) .nil)] ∧
    decodeContent jsonLoads ("[1]".toList) = [Json.num 1] ∧
    (decodeContent jsonLoads ("[[1]]".toList) : Multiset Json) ≠
      (decodeContent jsonLoads ("[1]".toList) : Multiset Json) := by
  refine ⟨by decide, by decide, by decide, ?_⟩
  intro h
  rw [show decodeContent jsonLoads ("[[1]]".toList) =
        [Json.arr (.cons (Json.num 1) .nil)] by decide,
      show decodeContent jsonLoads ("[1]".toList) = [Json.num 1] by decide] at h
  have h2 := Multiset.coe_eq_coe.mp h
  have h3 := h2.mem_iff.mp (List.mem_singleton.mpr rfl)
  simp at h3

/-- Lines that parse back to their records decode, in order, to exactly
those records. -/
lemma recoverLines_of_matches (parse : List Char → Option Json)
    {nlLines : List (List Char)} {rs : List Json}
    (hmatch : List.Forall₂
      (fun l r => pyStrip l ≠ [] ∧ cleanLine l = l ∧ parse l = some r) nlLines rs) :
    recoverLines parse nlLines = rs := by
  induction hmatch with
  | nil => rfl
  | @cons a b l1 l2 hlr hrest ih =>
    obtain ⟨h1, h2, h3⟩ := hlr
    have ha : a ≠ [] := by
      intro hl
      subst hl
      exact h1 rfl
    have hcl : cleanLine a ≠ [] := by rw [h2]; exact ha
    simp [recoverLines, h1, h2, h3, ih, hcl, ha]

/-- C7 as amended: when every record's newline-delimited line is non-blank,
survives cleaning unchanged and parses back to the record (as holds for
records serialized as JSON objects), and the joined newline form fails
whole-document parsing, the two framings decode to the same record
sequence. -/
theorem c7_amended (parse : List Char → Option Json) (rs : List Json)
    (arrText : List Char) (nlLines : List (List Char))
    (harr : parse arrText = some (Json.arr (JList.ofList rs)))
    (hfail : parse (joinNl nlLines) = none)
    (hne : nlLines ≠ [])
    (hnl : ∀ l ∈ nlLines, '\n' ∉ l)
    (hmatch : List.Forall₂
      (fun l r => pyStrip l ≠ [] ∧ cleanLine l = l ∧ parse l = some r) nlLines rs) :
    decodeContent parse arrText = rs ∧
    decodeContent parse (joinNl nlLines) = rs := by
  constructor
  · unfold decodeContent
    rw [harr]
    exact toList_ofList rs
  · unfold decodeContent
    rw [hfail]
    show recoverLines parse (splitNl (joinNl nlLines)) = rs
    rw [splitNl_joinNl nlLines hne hnl]
    exact recoverLines_of_matches parse hmatch

/-- Witness for C7's amended statement: records `1`, `2` framed as `[1,2]`
and as two lines. -/
theorem c7_amended_witness :
    decodeContent jsonLoads ("[1,2]".toList) = [Json.num 1, Json.num 2] ∧
    decodeContent jsonLoads (joinNl ["1".toList, "2".toList]) = [Json.num 1, Json.num 2] := by
  have h := c7_amended jsonLoads [Json.num 1, Json.num 2] ("[1,2]".toList)
    ["1".toList, "2".toList] (by decide) (by decide) (by decide) (by decide)
    (List.Forall₂.cons ⟨by decide, by decide, by decide⟩
      (List.Forall₂.cons ⟨by decide, by decide, by decide⟩ List.Forall₂.nil))
  exact h

/-- A line survives recovery iff it is non-blank, cleans to something
non-empty, and the cleaned form parses. -/
def lineKept (parse : List Char → Option Json) (l : List Char) : Bool :=
  !(pyStrip l).isEmpty && !(cleanLine l).isEmpty && (parse (cleanLine l)).isSome

/-- Dropping the lines that recovery would skip anyway does not change the
decoded sequence. -/
lemma recoverLines_filter_kept (parse : List Char → Option Json) (ls : List (List Char)) :
    recoverLines parse (ls.filter (lineKept parse)) = recoverLines parse ls := by
  induction ls with
  | nil => rfl
  | cons l rest ih =>
    by_cases h1 : pyStrip l = []
    · rw [List.filter_cons_of_neg (by simp [lineKept, h1]), ih]
      simp [recoverLines, h1]
    · by_cases h2 : cleanLine l = []
      · rw [List.filter_cons_of_neg (by simp [lineKept, h2]), ih]
        simp [recoverLines, h1, h2]
      · cases hp : parse (cleanLine l) with
        | none =>
          rw [List.filter_cons_of_neg (by simp [lineKept, h1, h2, hp]), ih]
          simp [recoverLines, h1, h2, hp]
        | some e =>
          rw [List.filter_cons_of_pos (by simp [lineKept, h1, h2, hp])]
          simp [recoverLines, h1, h2, hp, ih]

/-- C8 as amended: *provided the input fails whole-document parsing both
before and after removing the malformed lines* (the lines whose cleaned form
fails to parse) — that is, both inputs are decoded in line-recovery mode —
the decoded record sequence, and hence the constructed Graph, is the same
for the input with the malformed lines and for the input with them removed.
The framing condition is necessary: see the counterexample, where removing
the one malformed line makes the whole input parse as a single JSON array
and changes the Graph. -/
theorem c8_malformed_items_invariance (parse : List Char → Option Json) (content : List Char)
    (hfail1 : parse content = none)
    (hfail2 : parse (joinNl ((splitNl content).filter (lineKept parse))) = none) :
    decodeContent parse content =
      decodeContent parse (joinNl ((splitNl content).filter (lineKept parse))) ∧
    buildFromEntries (decodeContent parse content) =
      buildFromEntries
        (decodeContent parse (joinNl ((splitNl content).filter (lineKept parse)))) := by
  have key : decodeContent parse content =
      decodeContent parse (joinNl ((splitNl content).filter (lineKept parse))) := by
    unfold decodeContent
    rw [hfail1, hfail2]
    by_cases hfe : (splitNl content).filter (lineKept parse) = []
    · rw [← recoverLines_filter_kept parse (splitNl content), hfe]
      rfl
    · rw [splitNl_joinNl _ hfe
        (fun l hl => splitNl_no_newline content l (List.mem_of_mem_filter hl))]
      rw [recoverLines_filter_kept]
  exact ⟨key, congrArg buildFromEntries key⟩

/-- Witness for C8: the log `1↵BAD↵2` decodes — and builds — identically to
the log with the malformed line `BAD` removed. -/
theorem c8_witness :
    jsonLoads ("1\nBAD\n2".toList) = none ∧
    decodeContent jsonLoads ("1\nBAD\n2".toList) =
      decodeContent jsonLoads
        (joinNl ((splitNl ("1\nBAD\n2".toList)).filter (lineKept jsonLoads))) ∧
    decodeContent jsonLoads ("1\nBAD\n2".toList) = [Json.num 1, Json.num 2] := by
  refine ⟨by decide, ?_, by decide⟩
  exact (c8_malformed_items_invariance jsonLoads ("1\nBAD\n2".toList)
    (by decide) (by decide)).1

lemma ReachStar.snoc {es : List ((Json × Json) × Json)} {n a b : Json}
    (h : ReachStar es n a) (he : hasEdge es a b) : ReachStar es n b := by
  induction h with
  | refl => exact ReachStar.step he (ReachStar.refl b)
  | step h1 _ ih => exact ReachStar.step h1 (ih he)

lemma stepOnce_grow (es : List ((Json × Json) × Json)) (cur : List Json) :
    cur ⊆ stepOnce es cur := by
  induction es generalizing cur with
  | nil => exact List.Subset.refl _
  | cons e rest ih =>
    unfold stepOnce
    rw [List.foldl_cons]
    intro x hx
    refine ih _ ?_
    by_cases hcond : e.1.1 ∈ cur ∧ e.1.2 ∉ cur
    · simp only [if_pos hcond]
      exact List.mem_append_left _ hx
    · simpa only [if_neg hcond] using hx

lemma stepOnce_mem_edge {es : List ((Json × Json) × Json)} {cur : List Json}
    {a b l : Json} (ha : a ∈ cur) (he : ((a, b), l) ∈ es) :
    b ∈ stepOnce es cur := by
  induction es generalizing cur with
  | nil => cases he
  | cons e rest ih =>
    unfold stepOnce
    rw [List.foldl_cons]
    rcases List.mem_cons.mp he with h | h
    · subst h
      show b ∈ stepOnce rest _
      by_cases hcond : a ∈ cur ∧ b ∉ cur
      · simp only [if_pos hcond]
        exact stepOnce_grow rest _ (List.mem_append_right _ (List.mem_singleton.mpr rfl))
      · have hb : b ∈ cur := by
          by_cases hbc : b ∈ cur
          · exact hbc
          · exact absurd ⟨ha, hbc⟩ hcond
        by_cases hcond2 : (a, b).1 ∈ cur ∧ (a, b).2 ∉ cur
        · exact absurd hcond2 hcond
        · simp only [if_neg hcond]
          exact stepOnce_grow rest _ hb
    · show b ∈ stepOnce rest _
      refine ih ?_ h
      by_cases hcond : e.1.1 ∈ cur ∧ e.1.2 ∉ cur
      · simp only [if_pos hcond]
        exact List.mem_append_left _ ha
      · simpa only [if_neg hcond] using ha

lemma stepOnce_sound {es0 es : List ((Json × Json) × Json)} {n : Json} {cur : List Json}
    (hsub : ∀ e ∈ es, e ∈ es0)
    (hcur : ∀ x ∈ cur, ReachStar es0 n x) :
    ∀ x ∈ stepOnce es cur, ReachStar es0 n x := by
  induction es generalizing cur with
  | nil => exact hcur
  | cons e rest ih =>
    unfold stepOnce
    rw [List.foldl_cons]
    refine ih (fun e2 he2 => hsub e2 (List.mem_cons_of_mem _ he2)) ?_
    intro x hx
    by_cases hcond : e.1.1 ∈ cur ∧ e.1.2 ∉ cur
    · rw [if_pos hcond] at hx
      rcases List.mem_append.mp hx with h | h
      · exact hcur x h
      · rw [List.mem_singleton.mp h]
        refine (hcur e.1.1 hcond.1).snoc ⟨e.2, ?_⟩
        have : ((e.1.1, e.1.2), e.2) = e := rfl
        rw [this]
        exact hsub e (List.mem_cons_self _ _)
    · rw [if_neg hcond] at hx
      exact hcur x hx

lemma iterStep_sound {es : List ((Json × Json) × Json)} {n : Json} (k : Nat)
    (cur : List Json) (hcur : ∀ x ∈ cur, ReachStar es n x) :
    ∀ x ∈ iterStep es k cur, ReachStar es n x := by
  induction k generalizing cur with
  | zero => exact hcur
  | succ k ih =>
    unfold iterStep
    exact ih _ (stepOnce_sound (fun e he => he) hcur)

lemma reachList_sound {es : List ((Json × Json) × Json)} {n x : Json}
    (h : x ∈ reachList es n) : ReachStar es n x := by
  refine iterStep_sound _ [n] ?_ x h
  intro y hy
  rw [List.mem_singleton.mp hy]
  exact ReachStar.refl n

lemma stepOnce_append (es : List ((Json × Json) × Json)) (cur : List Json) :
    ∃ ex, stepOnce es cur = cur ++ ex := by
  induction es generalizing cur with
  | nil => exact ⟨[], by simp [stepOnce]⟩
  | cons e rest ih =>
    unfold stepOnce
    rw [List.foldl_cons]
    by_cases hcond : e.1.1 ∈ cur ∧ e.1.2 ∉ cur
    · rw [if_pos hcond]
      obtain ⟨ex, hex⟩ := ih (cur ++ [e.1.2])
      refine ⟨[e.1.2] ++ ex, ?_⟩
      show stepOnce rest (cur ++ [e.1.2]) = cur ++ ([e.1.2] ++ ex)
      rw [hex, List.append_assoc]
    · rw [if_neg hcond]
      exact ih cur

lemma stepOnce_nodup {es : List ((Json × Json) × Json)} {cur : List Json}
    (h : cur.Nodup) : (stepOnce es cur).Nodup := by
  induction es generalizing cur with
  | nil => exact h
  | cons e rest ih =>
    unfold stepOnce
    rw [List.foldl_cons]
    by_cases hcond : e.1.1 ∈ cur ∧ e.1.2 ∉ cur
    · rw [if_pos hcond]
      exact ih (by simp [List.nodup_append, h, hcond.2])
    · rw [if_neg hcond]
      exact ih h

lemma stepOnce_univ {es : List ((Json × Json) × Json)} {cur : List Json} {x : Json}
    (h : x ∈ stepOnce es cur) : x ∈ cur ∨ x ∈ es.map (fun e => e.1.2) := by
  induction es generalizing cur with
  | nil => exact Or.inl h
  | cons e rest ih =>
    unfold stepOnce at h
    rw [List.foldl_cons] at h
    rcases ih (show x ∈ stepOnce rest _ from h) with h2 | h2
    · by_cases hcond : e.1.1 ∈ cur ∧ e.1.2 ∉ cur
      · rw [if_pos hcond] at h2
        rcases List.mem_append.mp h2 with h3 | h3
        · exact Or.inl h3
        · right
          rw [List.mem_singleton.mp h3]
          simp
      · rw [if_neg hcond] at h2
        exact Or.inl h2
    · right
      simp only [List.map_cons, List.mem_cons]
      exact Or.inr h2

lemma iterStep_univ {es : List ((Json × Json) × Json)} (k : Nat) {cur : List Json} {x : Json}
    (h : x ∈ iterStep es k cur) : x ∈ cur ∨ x ∈ es.map (fun e => e.1.2) := by
  induction k generalizing cur with
  | zero => exact Or.inl h
  | succ k ih =>
    unfold iterStep at h
    rcases ih h with h2 | h2
    · exact stepOnce_univ h2
    · exact Or.inr h2

lemma iterStep_nodup {es : List ((Json × Json) × Json)} (k : Nat) {cur : List Json}
    (h : cur.Nodup) : (iterStep es k cur).Nodup := by
  induction k generalizing cur with
  | zero => exact h
  | succ k ih =>
    unfold iterStep
    exact ih (stepOnce_nodup h)

lemma iterStep_of_fix {es : List ((Json × Json) × Json)} (k : Nat) {cur : List Json}
    (h : stepOnce es cur = cur) : iterStep es k cur = cur := by
  induction k with
  | zero => rfl
  | succ k ih =>
    unfold iterStep
    rw [h]
    exact ih

lemma iterStep_grow (es : List ((Json × Json) × Json)) (k : Nat) (cur : List Json) :
    cur ⊆ iterStep es k cur := by
  induction k generalizing cur with
  | zero => exact List.Subset.refl _
  | succ k ih =>
    unfold iterStep
    exact fun x hx => ih _ (stepOnce_grow es cur hx)

lemma iterStep_growth (es : List ((Json × Json) × Json)) (k : Nat) (cur : List Json) :
    stepOnce es (iterStep es k cur) = iterStep es k cur ∨
      (iterStep es k cur).length ≥ cur.length + k := by
  induction k generalizing cur with
  | zero => exact Or.inr (by simp [iterStep])
  | succ k ih =>
    by_cases hfix : stepOnce es cur = cur
    · left
      have h1 : iterStep es (k + 1) cur = cur := by
        show iterStep es k (stepOnce es cur) = cur
        rw [hfix]
        exact iterStep_of_fix k hfix
      rw [h1, hfix]
    · rcases ih (stepOnce es cur) with h | h
      · exact Or.inl h
      · right
        obtain ⟨ex, hex⟩ := stepOnce_append es cur
        have hexne : ex ≠ [] := by
          intro hh
          rw [hh, List.append_nil] at hex
          exact hfix hex
      
        have hlen : (stepOnce es cur).length ≥ cur.length + 1 := by
          rw [hex, List.length_append]
          have : 0 < ex.length := List.length_pos.mpr hexne
          omega
        show (iterStep es k (stepOnce es cur)).length ≥ cur.length + (k + 1)
        omega

lemma reachList_fix (es : List ((Json × Json) × Json)) (n : Json) :
    stepOnce es (reachList es n) = reachList es n := by
  rcases iterStep_growth es (es.length + 1) [n] with h | h
  · exact h
  · exfalso
    have hnd : (iterStep es (es.length + 1) [n]).Nodup :=
      iterStep_nodup _ (List.nodup_singleton n)
    have hsub : iterStep es (es.length + 1) [n] ⊆ n :: es.map (fun e => e.1.2) := by
      intro x hx
      rcases iterStep_univ _ hx with h2 | h2
      · rw [List.mem_singleton.mp h2]; exact List.mem_cons_self _ _
      · exact List.mem_cons_of_mem _ h2
    have hle := (hnd.subperm hsub).length_le
    simp at hle h
    omega

lemma fix_closed {es : List ((Json × Json) × Json)} {S : List Json}
    (hfix : stepOnce es S = S) :
    ∀ {a m : Json}, ReachStar es a m → a ∈ S → m ∈ S := by
  intro a m h
  induction h with
  | refl a => exact fun ha => ha
  | step h1 _ ih =>
    intro ha
    obtain ⟨l, hl⟩ := h1
    exact ih (hfix ▸ stepOnce_mem_edge ha hl)

lemma reachList_complete {es : List ((Json × Json) × Json)} {n m : Json}
    (h : ReachStar es n m) : m ∈ reachList es n :=
  fix_closed (reachList_fix es n) h
    (iterStep_grow es (es.length + 1) [n] (List.mem_singleton.mpr rfl))

lemma reachList_iff (es : List ((Json × Json) × Json)) (n m : Json) :
    m ∈ reachList es n ↔ ReachStar es n m :=
  ⟨reachList_sound, reachList_complete⟩

lemma mem_subNodes (g : PyGraph) (n m : Json) :
    m ∈ subNodes g n ↔ (m = n ∨ ReachPlus g.edges n m) := by
  unfold subNodes descendants
  rw [List.mem_cons, List.mem_filter]
  constructor
  · rintro (h | ⟨hr, hne⟩)
    · exact Or.inl h
    · have hne2 : m ≠ n := by simpa using hne
      cases (reachList_iff g.edges n m).mp hr with
      | refl => exact absurd rfl hne2
      | step h1 h2 => exact Or.inr ⟨_, h1, h2⟩
  · rintro (h | ⟨b, hb, hbm⟩)
    · exact Or.inl h
    · by_cases hmn : m = n
      · exact Or.inl hmn
      · exact Or.inr ⟨(reachList_iff g.edges n m).mpr (ReachStar.step hb hbm), by simpa using hmn⟩

/-- The node keys of a graph, in insertion order. -/
def nodeKeys (ns : List (Json × Option String)) : List Json := ns.map Prod.fst

lemma mem_nodeKeys_extract (g : PyGraph) (n m : Json) :
    m ∈ nodeKeys (extractSub g n).nodes ↔ m ∈ nodeKeys g.nodes ∧ m ∈ subNodes g n := by
  unfold extractSub nodeKeys
  simp only [List.mem_map, List.mem_filter]
  constructor
  · rintro ⟨kv, ⟨hkv, hs⟩, hm⟩
    subst hm
    exact ⟨⟨kv, hkv, rfl⟩, by simpa using hs⟩
  · rintro ⟨⟨kv, hkv, hm⟩, hs⟩
    subst hm
    exact ⟨kv, ⟨hkv, by simpa using hs⟩, rfl⟩

lemma mem_edges_extract (g : PyGraph) (n u v l : Json) :
    ((u, v), l) ∈ (extractSub g n).edges ↔
      ((u, v), l) ∈ g.edges ∧ u ∈ subNodes g n ∧ v ∈ subNodes g n := by
  unfold extractSub
  simp [List.mem_filter]

lemma reachStar_target {es : List ((Json × Json) × Json)} {b m : Json}
    (h : ReachStar es b m) : m = b ∨ ∃ a l, ((a, m), l) ∈ es := by
  induction h with
  | refl a => exact Or.inl rfl
  | @step a b2 c h1 h2 ih =>
    rcases ih with h3 | h3
    · subst h3
      obtain ⟨l, hl⟩ := h1
      exact Or.inr ⟨a, l, hl⟩
    · exact Or.inr h3

/-- Structural well-formedness of the build state: edge endpoints are graph
nodes, file nodes are graph nodes, and node keys and `file_nodes` are
duplicate-free.  The pipeline establishes and preserves it. -/
def GraphWF (st : BuildState) : Prop :=
  (∀ e ∈ st.graph.edges, e.1.1 ∈ nodeKeys st.graph.nodes ∧ e.1.2 ∈ nodeKeys st.graph.nodes) ∧
  (∀ x ∈ st.file_nodes, x ∈ nodeKeys st.graph.nodes) ∧
  (nodeKeys st.graph.nodes).Nodup ∧
  st.file_nodes.Nodup

lemma nodeSet_keys (ns : List (Json × Option String)) (k : Json) (t : String) :
    nodeKeys (nodeSet ns k t) =
      if k ∈ nodeKeys ns then nodeKeys ns else nodeKeys ns ++ [k] := by
  induction ns with
  | nil => simp [nodeSet, nodeKeys]
  | cons kv rest ih =>
    obtain ⟨k2, t2⟩ := kv
    by_cases h : k2 = k
    · subst h
      simp [nodeSet, nodeKeys]
    · simp only [nodeSet, if_neg h, nodeKeys, List.map_cons]
      rw [show nodeKeys (nodeSet rest k t) = (nodeSet rest k t).map Prod.fst from rfl] at ih
      rw [ih]
      by_cases h2 : k ∈ nodeKeys rest
      · rw [if_pos h2, if_pos (by simp [nodeKeys] at h2 ⊢; exact Or.inr h2)]
        rfl
      · rw [if_neg h2, if_neg (by simp [nodeKeys] at h2 ⊢; exact ⟨fun hh => h hh.symm, h2⟩)]
        simp [nodeKeys]
  
lemma nodeEnsure_keys (ns : List (Json × Option String)) (k : Json) :
    nodeKeys (nodeEnsure ns k) =
      if k ∈ nodeKeys ns then nodeKeys ns else nodeKeys ns ++ [k] := by
  unfold nodeEnsure
  have hany : (ns.any fun kv => kv.1 = k) = true ↔ k ∈ nodeKeys ns := by
    rw [List.any_eq_true]
    constructor
    · rintro ⟨kv, hkv, hk⟩
      exact List.mem_map.mpr ⟨kv, hkv, by simpa using hk⟩
    · intro hm
      obtain ⟨kv, hkv, hk⟩ := List.mem_map.mp hm
      exact ⟨kv, hkv, by simp [hk]⟩
  by_cases h : k ∈ nodeKeys ns
  · rw [if_pos (hany.mpr h), if_pos h]
  · rw [if_neg (fun hc => h (hany.mp hc)), if_neg h]
    simp [nodeKeys]

lemma mem_nodeSet_keys_self (ns : List (Json × Option String)) (k : Json) (t : String) :
    k ∈ nodeKeys (nodeSet ns k t) := by
  rw [nodeSet_keys]
  by_cases h : k ∈ nodeKeys ns <;> simp [h]

lemma mem_nodeSet_keys_mono {ns : List (Json × Option String)} {m : Json} (k : Json)
    (t : String) (h : m ∈ nodeKeys ns) : m ∈ nodeKeys (nodeSet ns k t) := by
  rw [nodeSet_keys]
  by_cases h2 : k ∈ nodeKeys ns <;> simp [h2, h]

lemma mem_nodeEnsure_keys_self (ns : List (Json × Option String)) (k : Json) :
    k ∈ nodeKeys (nodeEnsure ns k) := by
  rw [nodeEnsure_keys]
  by_cases h : k ∈ nodeKeys ns <;> simp [h]

lemma mem_nodeEnsure_keys_mono {ns : List (Json × Option String)} {m : Json} (k : Json)
    (h : m ∈ nodeKeys ns) : m ∈ nodeKeys (nodeEnsure ns k) := by
  rw [nodeEnsure_keys]
  by_cases h2 : k ∈ nodeKeys ns <;> simp [h2, h]

lemma nodeSet_keys_nodup {ns : List (Json × Option String)} (k : Json) (t : String)
    (h : (nodeKeys ns).Nodup) : (nodeKeys (nodeSet ns k t)).Nodup := by
  rw [nodeSet_keys]
  by_cases h2 : k ∈ nodeKeys ns <;> simp [h2, h, List.nodup_append]

lemma nodeEnsure_keys_nodup {ns : List (Json × Option String)} (k : Json)
    (h : (nodeKeys ns).Nodup) : (nodeKeys (nodeEnsure ns k)).Nodup := by
  rw [nodeEnsure_keys]
  by_cases h2 : k ∈ nodeKeys ns <;> simp [h2, h, List.nodup_append]

lemma setPut_nodup {s : List Json} (x : Json) (h : s.Nodup) : (setPut s x).Nodup := by
  unfold setPut
  by_cases h2 : x ∈ s <;> simp [h2, h, List.nodup_append]

lemma edgeSet_mem_or {es : List ((Json × Json) × Json)} {u v l : Json}
    {e : (Json × Json) × Json} (h : e ∈ edgeSet es u v l) :
    e ∈ es ∨ e = ((u, v), l) := by
  induction es with
  | nil =>
    simp [edgeSet] at h
    exact Or.inr h
  | cons e2 rest ih =>
    obtain ⟨p2, l2⟩ := e2
    unfold edgeSet at h
    by_cases hp : p2 = (u, v)
    · rw [if_pos hp] at h
      rcases List.mem_cons.mp h with h2 | h2
      · subst hp
        exact Or.inr (by rw [h2])
      · exact Or.inl (List.mem_cons_of_mem _ h2)
    · rw [if_neg hp] at h
      rcases List.mem_cons.mp h with h2 | h2
      · exact Or.inl (by rw [h2]; exact List.mem_cons_self _ _)
      · rcases ih h2 with h3 | h3
        · exact Or.inl (List.mem_cons_of_mem _ h3)
        · exact Or.inr h3

lemma addNode_eq_some {g : PyGraph} {k : Json} {t : String} {g2 : PyGraph} :
    addNode g k t = some g2 ↔
      k.hashable = true ∧ g2 = { g with nodes := nodeSet g.nodes k t } := by
  unfold addNode
  by_cases h : k.hashable = true
  · simp [h, eq_comm]
  · simp [h]

lemma addEdge_eq_some {g : PyGraph} {u v l : Json} {g2 : PyGraph} :
    addEdge g u v l = some g2 ↔
      (u.hashable && v.hashable) = true ∧
      g2 = { nodes := nodeEnsure (nodeEnsure g.nodes u) v, edges := edgeSet g.edges u v l } := by
  unfold addEdge
  by_cases h : (u.hashable && v.hashable) = true
  · simp [h, eq_comm]
  · simp [h]

lemma setAdd_eq_some {s : List Json} {x : Json} {r : List Json} :
    setAdd s x = some r ↔ x.hashable = true ∧ r = setPut s x := by
  unfold setAdd
  by_cases h : x.hashable = true
  · simp [h, eq_comm]
  · simp [h]

lemma dictSet_eq_some {d : List (Json × Json)} {k v : Json} {r : List (Json × Json)} :
    dictSet d k v = some r ↔ k.hashable = true ∧ r = dictPut d k v := by
  unfold dictSet
  by_cases h : k.hashable = true
  · simp [h, eq_comm]
  · simp [h]

lemma graphWF_node_only (st : BuildState) (hwf : GraphWF st) (fp : Json) (t : String)
    (fn : List Json) (hfn : fn = st.file_nodes ∨ fn = setPut st.file_nodes fp)
    (d : List (Json × Json)) (fs : List Json) (a b c : Nat) :
    GraphWF { graph := { nodes := nodeSet st.graph.nodes fp t, edges := st.graph.edges },
              file_nodes := fn, uuid2name := d, file_names := fs,
              f := a, p := b, s := c } := by
  obtain ⟨hA, hB, hC, hD⟩ := hwf
  refine ⟨?_, ?_, ?_, ?_⟩
  · intro e he
    obtain ⟨h1, h2⟩ := hA e he
    exact ⟨mem_nodeSet_keys_mono fp t h1, mem_nodeSet_keys_mono fp t h2⟩
  · intro x hx
    rcases hfn with h | h
    · subst h
      exact mem_nodeSet_keys_mono fp t (hB x hx)
    · subst h
      unfold setPut at hx
      by_cases hmem : fp ∈ st.file_nodes
      · rw [if_pos hmem] at hx
        exact mem_nodeSet_keys_mono fp t (hB x hx)
      · rw [if_neg hmem] at hx
        rcases List.mem_append.mp hx with h2 | h2
        · exact mem_nodeSet_keys_mono fp t (hB x h2)
        · rw [List.mem_singleton.mp h2]
          exact mem_nodeSet_keys_self _ _ _
  · exact nodeSet_keys_nodup fp t hC
  · rcases hfn with h | h
    · subst h; exact hD
    · subst h; exact setPut_nodup fp hD

lemma graphWF_edge_only (st : BuildState) (hwf : GraphWF st) (u v l : Json) :
    GraphWF { st with
      graph := { nodes := nodeEnsure (nodeEnsure st.graph.nodes u) v,
                 edges := edgeSet st.graph.edges u v l } } := by
  obtain ⟨hA, hB, hC, hD⟩ := hwf
  refine ⟨?_, ?_, ?_, ?_⟩
  · intro e he
    rcases edgeSet_mem_or he with h | h
    · obtain ⟨h1, h2⟩ := hA e h
      exact ⟨mem_nodeEnsure_keys_mono v (mem_nodeEnsure_keys_mono u h1),
             mem_nodeEnsure_keys_mono v (mem_nodeEnsure_keys_mono u h2)⟩
    · subst h
      refine ⟨mem_nodeEnsure_keys_mono v (mem_nodeEnsure_keys_self _ _), ?_⟩
      exact mem_nodeEnsure_keys_self _ _
  · intro x hx
    exact mem_nodeEnsure_keys_mono v (mem_nodeEnsure_keys_mono u (hB x hx))
  · exact nodeEnsure_keys_nodup v (nodeEnsure_keys_nodup u hC)
  · exact hD

lemma graphWF_processNode (st : BuildState) (e : Json) (hwf : GraphWF st) :
    GraphWF (processNode st e) := by
  unfold processNode fileBranch subjectBranch netflowBranch
  repeat' split
  all_goals try exact hwf
  all_goals simp only [addNode_eq_some, setAdd_eq_some, dictSet_eq_some] at *
  all_goals simp_all
  all_goals first
    | exact graphWF_node_only st hwf _ _ _ (Or.inl rfl) _ _ _ _ _
    | exact graphWF_node_only st hwf _ _ _ (Or.inr rfl) _ _ _ _ _

lemma graphWF_processEdge (st : BuildState) (e : Json) (hwf : GraphWF st) :
    GraphWF (processEdge st e) := by
  unfold processEdge
  repeat' split
  all_goals try exact hwf
  all_goals (dsimp only []; repeat' split)
  all_goals try exact hwf
  all_goals simp only [addEdge_eq_some] at *
  all_goals simp_all
  all_goals exact graphWF_edge_only st hwf _ _ _

lemma graphWF_init : GraphWF initState := by
  refine ⟨?_, ?_, ?_, ?_⟩ <;> simp [initState, nodeKeys, GraphWF]

lemma graphWF_build (entries : List Json) : GraphWF (buildFromEntries entries) := by
  unfold buildFromEntries
  have h1 : ∀ (l : List Json) (st : BuildState), GraphWF st →
      GraphWF (List.foldl processNode st l) := by
    intro l
    induction l with
    | nil => exact fun st h => h
    | cons e rest ih => exact fun st h => ih _ (graphWF_processNode st e h)
  have h2 : ∀ (l : List Json) (st : BuildState), GraphWF st →
      GraphWF (List.foldl processEdge st l) := by
    intro l
    induction l with
    | nil => exact fun st h => h
    | cons e rest ih => exact fun st h => ih _ (graphWF_processEdge st e h)
  exact h2 _ _ (h1 _ _ graphWF_init)

lemma stepOnce_id_of {es : List ((Json × Json) × Json)} {cur : List Json}
    (h : ∀ e ∈ es, ¬(e.1.1 ∈ cur ∧ e.1.2 ∉ cur)) : stepOnce es cur = cur := by
  induction es with
  | nil => rfl
  | cons e rest ih =>
    unfold stepOnce
    rw [List.foldl_cons, if_neg (h e (List.mem_cons_self _ _))]
    exact ih (fun e2 he2 => h e2 (List.mem_cons_of_mem _ he2))

lemma reachList_no_out {es : List ((Json × Json) × Json)} {n : Json}
    (h : ∀ b, ¬ hasEdge es n b) : reachList es n = [n] := by
  unfold reachList
  refine iterStep_of_fix _ (stepOnce_id_of ?_)
  rintro e he ⟨h1, h2⟩
  have h3 : e.1.1 = n := List.mem_singleton.mp h1
  refine h e.1.2 ⟨e.2, ?_⟩
  rw [← h3]
  exact he

lemma subNodes_no_out {g : PyGraph} {n : Json}
    (h : ∀ b, ¬ hasEdge g.edges n b) : subNodes g n = [n] := by
  unfold subNodes descendants
  rw [reachList_no_out h]
  simp

lemma nodeKeys_filter_mem (ns : List (Json × Option String)) (S : List Json) :
    nodeKeys (ns.filter (fun kv => kv.1 ∈ S)) = (nodeKeys ns).filter (fun m => m ∈ S) := by
  induction ns with
  | nil => rfl
  | cons kv rest ih =>
    show nodeKeys (List.filter _ (kv :: rest)) = List.filter _ (List.map Prod.fst (kv :: rest))
    rw [List.map_cons]
    by_cases h : kv.1 ∈ S
    · rw [List.filter_cons_of_pos (by simpa using h), List.filter_cons_of_pos (by simpa using h)]
      show kv.1 :: nodeKeys (List.filter _ rest) = kv.1 :: List.filter _ (List.map Prod.fst rest)
      rw [ih]
      rfl
    · rw [List.filter_cons_of_neg (by simpa using h), List.filter_cons_of_neg (by simpa using h)]
      exact ih

lemma filter_eq_nil_of_not_mem {l : List Json} {n : Json} (h : n ∉ l) :
    l.filter (fun m => m = n) = [] := by
  induction l with
  | nil => rfl
  | cons a rest ih =>
    have ha : a ≠ n := by
      rintro rfl
      exact h (List.mem_cons_self _ _)
    rw [List.filter_cons_of_neg (by simpa using ha)]
    exact ih (fun hm => h (List.mem_cons_of_mem _ hm))

lemma filter_eq_singleton_of_nodup {l : List Json} {n : Json}
    (hnd : l.Nodup) (h : n ∈ l) : l.filter (fun m => m = n) = [n] := by
  induction l with
  | nil => cases h
  | cons a rest ih =>
    rcases List.mem_cons.mp h with h1 | h1
    · subst h1
      rw [List.filter_cons_of_pos (by simp)]
      rw [filter_eq_nil_of_not_mem (List.nodup_cons.mp hnd).1]
    · have ha : a ≠ n := by
        rintro rfl
        exact (List.nodup_cons.mp hnd).1 h1
      rw [List.filter_cons_of_neg (by simpa using ha)]
      exact ih (List.nodup_cons.mp hnd).2 h1

lemma buildSubgraphs_filter (st : BuildState) (n : Json)
    (hnd : st.file_nodes.Nodup) (hn : n ∈ st.file_nodes) :
    (buildSubgraphs st).filter (fun p => p.1 = n) = [(n, extractSub st.graph n)] := by
  unfold buildSubgraphs
  rw [List.filter_map]
  have hcomp : ((fun p : Json × PyGraph => decide (p.1 = n)) ∘
      (fun m => (m, extractSub st.graph m))) = fun m => decide (m = n) := by
    funext m
    rfl
  rw [hcomp, filter_eq_singleton_of_nodup hnd hn]
  rfl

lemma filter_edges_no_out {es : List ((Json × Json) × Json)} {n : Json}
    (hno : ∀ b, ¬ hasEdge es n b) :
    es.filter (fun e => e.1.1 ∈ ([n] : List Json) ∧ e.1.2 ∈ ([n] : List Json)) = [] := by
  induction es with
  | nil => rfl
  | cons e rest ih =>
    rw [List.filter_cons_of_neg]
    · exact ih (fun b hb => hno b ⟨hb.choose, List.mem_cons_of_mem _ hb.choose_spec⟩)
    · simp only [List.mem_singleton, decide_eq_true_eq, not_and]
      intro h1 _
      exact absurd ⟨e.2, by rw [← h1]; exact List.mem_cons_self _ _⟩ (hno e.1.2)

/-- C2: for every file node `n` of the completed Graph, the extractor
produces exactly one Behavior Subgraph keyed by `n`; its node-key set is
exactly `{n}` together with the nodes reachable from `n` by one or more
directed edges; its edge list holds exactly the edges of the full Graph
whose endpoints both lie in that set, with their labels; and a file node
with no outgoing edge yields the singleton subgraph with no edges. -/
theorem c2_behavior_subgraph_extraction (entries : List Json) (n : Json)
    (hn : n ∈ (buildFromEntries entries).file_nodes) :
    ((buildSubgraphs (buildFromEntries entries)).filter (fun p => p.1 = n) =
       [(n, extractSub (buildFromEntries entries).graph n)]) ∧
    (∀ m, m ∈ nodeKeys (extractSub (buildFromEntries entries).graph n).nodes ↔
       (m = n ∨ ReachPlus (buildFromEntries entries).graph.edges n m)) ∧
    (∀ u v l, ((u, v), l) ∈ (extractSub (buildFromEntries entries).graph n).edges ↔
       (((u, v), l) ∈ (buildFromEntries entries).graph.edges ∧
        (u = n ∨ ReachPlus (buildFromEntries entries).graph.edges n u) ∧
        (v = n ∨ ReachPlus (buildFromEntries entries).graph.edges n v))) ∧
    ((∀ b, ¬ hasEdge (buildFromEntries entries).graph.edges n b) →
       nodeKeys (extractSub (buildFromEntries entries).graph n).nodes = [n] ∧
       (extractSub (buildFromEntries entries).graph n).edges = []) := by
  obtain ⟨hA, hB, hC, hD⟩ := graphWF_build entries
  refine ⟨?_, ?_, ?_, ?_⟩
  · exact buildSubgraphs_filter _ n hD hn
  · intro m
    rw [mem_nodeKeys_extract, mem_subNodes]
    constructor
    · rintro ⟨_, h⟩
      exact h
    · intro h
      refine ⟨?_, h⟩
      rcases h with rfl | ⟨b, hb, hbm⟩
      · exact hB m hn
      · rcases reachStar_target hbm with rfl | ⟨a2, l2, hl2⟩
        · obtain ⟨l, hl⟩ := hb
          exact (hA _ hl).2
        · exact (hA _ hl2).2
  · intro u v l
    rw [mem_edges_extract, mem_subNodes, mem_subNodes]
  · intro hno
    constructor
    · show nodeKeys ((buildFromEntries entries).graph.nodes.filter _) = [n]
      rw [nodeKeys_filter_mem]
      simp only [subNodes_no_out hno]
      rw [List.filter_congr (fun a _ => by simp : ∀ a ∈
            nodeKeys (buildFromEntries entries).graph.nodes,
            (decide (a ∈ ([n] : List Json))) = decide (a = n))]
      exact filter_eq_singleton_of_nodup hC (hB n hn)
    · show (buildFromEntries entries).graph.edges.filter _ = []
      simp only [subNodes_no_out hno]
      exact filter_edges_no_out hno

/-- The concrete record sequence of the spec's scenario: one file, one
process, one read event. -/
def c2entriesW : List Json :=
  [fileDeclEntry "F1" "/f", procDeclEntry "P1" "bash",
   eventEntry (Json.str "read") (Json.str "P1") (Json.str "F1")]

/-- Witness for C2: the spec scenario produces exactly one subgraph keyed
by `/f`, and a lone file declaration yields the singleton subgraph with no
edges. -/
theorem c2_witness :
    (Json.str "/f") ∈ (buildFromEntries c2entriesW).file_nodes ∧
    (buildSubgraphs (buildFromEntries c2entriesW)).filter (fun p => p.1 = Json.str "/f") =
      [(Json.str "/f", extractSub (buildFromEntries c2entriesW).graph (Json.str "/f"))] ∧
    nodeKeys (extractSub (buildFromEntries
      [fileDeclEntry "F2" "/lone"]).graph (Json.str "/lone")).nodes = [Json.str "/lone"] ∧
    (extractSub (buildFromEntries [fileDeclEntry "F2" "/lone"]).graph (Json.str "/lone")).edges
      = [] := by
  have he : (buildFromEntries [fileDeclEntry "F2" "/lone"]).graph.edges = [] := by decide
  have h2 := (c2_behavior_subgraph_extraction [fileDeclEntry "F2" "/lone"]
      (Json.str "/lone") (by decide)).2.2.2
    (fun b hb => by
      rw [he] at hb
      obtain ⟨l, hl⟩ := hb
      cases hl)
  exact ⟨by decide,
    (c2_behavior_subgraph_extraction c2entriesW (Json.str "/f") (by decide)).1,
    h2.1, h2.2⟩

/-- The serialized file declaration used in the C8 counterexample. -/
def c8declText : String :=
  "\x7b\"datum\":\x7b\"" ++ kFile ++
    "\":\x7b\"baseObject\":\x7b\"properties\":\x7b\"map\":\x7b\"path\":\"/x\"\x7d\x7d\x7d,\"uuid\":\"F1\"\x7d\x7d\x7d"

/-- A log of three well-formed records (`0`, a file declaration, `2`) in
truncated-array framing, interleaved with one malformed line (`BAD,`). -/
def c8content : List Char :=
  ("[0,\nBAD,\n[" ++ c8declText ++ "],\n2]").toList

/-- The same log with its malformed lines removed. -/
def c8contentRemoved : List Char :=
  joinNl ((splitNl c8content).filter (lineKept jsonLoads))

set_option maxRecDepth 100000 in
/-- Counterexample to C8: the log `c8content` holds three well-formed
records interleaved with exactly one malformed line, `BAD,`.  With the
malformed line present the whole-document parse fails, recovery unwraps the
bracket-framed declaration line, and the Graph gains the file node `/x`.
With the malformed line removed the whole input parses as one JSON array,
the declaration stays wrapped in an inner array (a non-dict record the node
pass skips), and the Graph has no nodes — so removing the malformed item
changes the constructed Graph's node set. -/
theorem c8_counterexample :
    jsonLoads c8content = none ∧
    (splitNl c8content).filter (fun l => !(lineKept jsonLoads l)) = ["BAD,".toList] ∧
    c8contentRemoved = ("[0,\n[" ++ c8declText ++ "],\n2]").toList ∧
    (jsonLoads c8contentRemoved).isSome = true ∧
    (buildFromEntries (decodeContent jsonLoads c8content)).graph.nodes =
      [(Json.str "/x", some "file")] ∧
    (buildFromEntries (decodeContent jsonLoads c8contentRemoved)).graph.nodes = [] ∧
    (buildFromEntries (decodeContent jsonLoads c8content)).graph.nodes ≠
      (buildFromEntries (decodeContent jsonLoads c8contentRemoved)).graph.nodes := by
  exact ⟨by decide, by decide, by decide, by decide, by decide, by decide, by decide⟩
